import Mathlib

/-
Verification of the RTOA RPL storing-mode simulator (node.py, malicious.py,
environment.py, run_simulation.py) against its natural-language specification.

The protocol state machine is shallowly embedded: each Python handler becomes a
pure function from a `World` (the list of all nodes plus the performance
monitor) to a `World`.  Simulation time and the SimPy scheduler are abstracted:
an `Ev` names one atomic process body (one inbox dispatch, one discovery
broadcast, one advertisement pass, one trickle fire, one attack cycle, one
traffic generation), and `step` is the induced nondeterministic transition
relation; inbox FIFO order is preserved exactly.  Euclidean distances are only
ever compared in the source (`<` and `<=`), so they are represented by exact
squared distances over `Int`, which preserves both comparisons.
-/

namespace RTOA

/-- Message variants carried in a node's inbox, after node.py's tagged tuples
("DIS", sender), ("DIO", sender), ("DAO", child_node, child_prefix),
("DAO-ACK", from_node, child_prefix, status) and plain data packets. -/
inductive Msg where
  | dis (sender : Nat)
  | dio (sender : Nat)
  | dao (childNode : Nat) (childPfx : String)
  | daoAck (fromNode : Nat) (childPfx : String) (status : Nat)
  | data (srcId : Nat) (dstPfx : String)
deriving DecidableEq

/-- Protocol state of one node, after Node.__init__ in node.py.  Node
references (parent, neighbors, downward-route targets) are indices into the
world's node list.  `I` and `t` are the trickle-timer interval bound and next
fire offset, rationals standing for the source's floats. -/
structure NodeState where
  nodeId : Nat
  position : Int × Int
  isRoot : Bool
  pfx : String
  parent : Option Nat
  neighbors : List Nat
  downward_routes : List (String × Nat)
  max_downward_routes : Nat
  I : Rat
  t : Rat
  inbox : List Msg
deriving DecidableEq

instance : Inhabited NodeState :=
  ⟨{ nodeId := 0, position := (0, 0), isRoot := false, pfx := "",
     parent := none, neighbors := [], downward_routes := [],
     max_downward_routes := 0, I := 1, t := 1, inbox := [] }⟩

/-- Counters of performance.py's PerformanceMonitor that the core feeds
(on_data_packet_created, on_data_packet_delivered, on_control_packet_sent,
on_transmit, on_receive). -/
structure Monitor where
  total_data_sent : Nat
  total_data_delivered : Nat
  control_packets_sent : Nat
  txCount : Nat
  rxCount : Nat
deriving DecidableEq

/-- The whole simulated system: all nodes (index = creation order, node 0 is
the root), the squared connection range, and the shared monitor. -/
structure World where
  nodes : List NodeState
  rangeSq : Int
  monitor : Monitor
deriving DecidableEq

/-- Node lookup by index (default node when out of range). -/
def nd (w : World) (i : Nat) : NodeState := w.nodes.getD i default

/-- Update node `i` in place (identity when out of range, like List.set). -/
def modifyNode (w : World) (i : Nat) (f : NodeState → NodeState) : World :=
  { w with nodes := w.nodes.set i (f (nd w i)) }

/-- Append a message to node `i`'s inbox: `node.inbox.append(msg)`. -/
def pushMsg (w : World) (i : Nat) (m : Msg) : World :=
  modifyNode w i (fun n => { n with inbox := n.inbox ++ [m] })

/-- Apply a monitor update. -/
def withMon (w : World) (f : Monitor → Monitor) : World :=
  { w with monitor := f w.monitor }

/-- on_control_packet_sent() followed by on_transmit(), the pair the source
always calls together when sending a control message. -/
def onCtrlTx (w : World) : World :=
  withMon w (fun m => { m with control_packets_sent := m.control_packets_sent + 1,
                               txCount := m.txCount + 1 })

/-- on_transmit() alone (data-packet send path). -/
def onTx (w : World) : World := withMon w (fun m => { m with txCount := m.txCount + 1 })

/-- on_receive() (run_inbox calls it before handling a data packet). -/
def onRx (w : World) : World := withMon w (fun m => { m with rxCount := m.rxCount + 1 })

/-- on_data_packet_delivered: the delivery counter increments. -/
def onDelivered (w : World) : World :=
  withMon w (fun m => { m with total_data_delivered := m.total_data_delivered + 1 })

/-- on_data_packet_created: the sent counter increments. -/
def onDataSent (w : World) : World :=
  withMon w (fun m => { m with total_data_sent := m.total_data_sent + 1 })

/-- Python dict lookup `d.get(k)` on the downward-route table. -/
def dictGet : List (String × Nat) → String → Option Nat
  | [], _ => none
  | (k, v) :: rest, key => if k = key then some v else dictGet rest key

/-- Python dict assignment `d[k] = v`: overwrite in place if the key exists,
otherwise append. -/
def dictSet : List (String × Nat) → String → Nat → List (String × Nat)
  | [], key, val => [(key, val)]
  | (k, v) :: rest, key, val =>
      if k = key then (key, val) :: rest else (k, v) :: dictSet rest key val

/-- Squared Euclidean distance between two positions; calculate_distance in
node.py returns the square root, which the source only ever compares, so the
square preserves every comparison. -/
def distSq (a b : Int × Int) : Int := (a.1 - b.1) ^ 2 + (a.2 - b.2) ^ 2

/-- Lowercase hex digits of `n`, as Python's `f"{n:x}"`. -/
def hexStr (n : Nat) : String := String.mk (Nat.toDigits 16 n)

/-- Python's `f"{n:02x}"`: lowercase hex zero-padded to width two. -/
def hex2 (n : Nat) : String :=
  let cs := Nat.toDigits 16 n
  String.mk (List.replicate (2 - cs.length) '0' ++ cs)

/-- Prefix derivation of receive_dio / __init__:
`f"{sender.prefix}:{int(self.node_id[4:]):02x}"`. -/
def derive (p : String) (num : Nat) : String := p ++ ":" ++ hex2 num

/-- The root's fixed prefix "2001:db8::1". -/
def rootPfx : String := "2001:db8::1"

/-- Node.receive_dao(child_prefix, child_node) of node.py: duplicate mappings
are ignored; a full table rejects (OVERLOADED); otherwise the route is
installed, forwarded to the parent when one exists, and acknowledged to the
child with status 0 (the hasattr capability check is always true). -/
def receive_dao (w : World) (receiver : Nat) (child_pfx : String) (child_node : Nat) : World :=
  let n := nd w receiver
  if dictGet n.downward_routes child_pfx = some child_node then w
  else if n.max_downward_routes ≤ n.downward_routes.length then w
  else
    let w1 := modifyNode w receiver
      (fun m => { m with downward_routes := dictSet m.downward_routes child_pfx child_node })
    let w2 := match n.parent with
      | some p => pushMsg (onCtrlTx w1) p (Msg.dao child_node child_pfx)
      | none => w1
    pushMsg (onCtrlTx w2) child_node (Msg.daoAck receiver child_pfx 0)

/-- The parent-adoption body shared by both branches of receive_dio: set the
parent, re-derive the prefix from the sender's current prefix and own numeric
suffix, then send_dao (append a DAO for the new prefix to the new parent's
inbox, counting one control packet and one transmission). -/
def adoptParent (w : World) (receiver sender : Nat) : World :=
  let newPfx := derive (nd w sender).pfx (nd w receiver).nodeId
  let w1 := modifyNode w receiver (fun m => { m with parent := some sender, pfx := newPfx })
  pushMsg (onCtrlTx w1) sender (Msg.dao receiver newPfx)

/-- Node.receive_dio(sender) of node.py: the root ignores DIOs; a parentless
node adopts the sender unconditionally; a node with a parent switches only
when the sender is strictly closer and the sender's parent is not this node. -/
def receive_dio (w : World) (receiver sender : Nat) : World :=
  let n := nd w receiver
  if n.isRoot then w
  else
    match n.parent with
    | none => adoptParent w receiver sender
    | some p =>
        if distSq n.position (nd w sender).position < distSq n.position (nd w p).position
            ∧ (nd w sender).parent ≠ some receiver
        then adoptParent w receiver sender
        else w

/-- Node.receive_dis(sender) of node.py: a new in-range sender is registered
as a neighbor, the reverse direction is added to the sender when missing, and
a DIO reply is appended to the sender's inbox. -/
def receive_dis (w : World) (receiver sender : Nat) : World :=
  let n := nd w receiver
  if sender ∉ n.neighbors ∧ distSq n.position (nd w sender).position ≤ w.rangeSq then
    let w1 := modifyNode w receiver (fun m => { m with neighbors := m.neighbors ++ [sender] })
    let w2 := if receiver ∈ (nd w1 sender).neighbors then w1
              else modifyNode w1 sender (fun m => { m with neighbors := m.neighbors ++ [receiver] })
    pushMsg (onCtrlTx w2) sender (Msg.dio receiver)
  else w

/-- Node.send_packet(packet, next_hop): on_transmit, then append the packet to
the next hop's inbox. -/
def send_packet (w : World) (src : Nat) (dst_pfx : String) (next_hop : Nat) : World :=
  pushMsg (onTx w) next_hop (Msg.data src dst_pfx)

/-- Node.handle_packet of node.py: deliver when the destination is the own
prefix, else forward down a matching installed route, else forward up to the
parent, else drop. -/
def handle_packet (w : World) (i : Nat) (src : Nat) (dst_pfx : String) : World :=
  let n := nd w i
  if dst_pfx = n.pfx then onDelivered w
  else
    match dictGet n.downward_routes dst_pfx with
    | some child => send_packet w src dst_pfx child
    | none =>
        match n.parent with
        | some p => send_packet w src dst_pfx p
        | none => w

/-- One pass of Node.run_inbox: pop the oldest inbox item and dispatch it to
the matching handler; DAO-ACKs are purely logged, data packets first count an
on_receive. -/
def stepInbox (w : World) (i : Nat) : World :=
  match (nd w i).inbox with
  | [] => w
  | m :: _ =>
      let w1 := modifyNode w i (fun n => { n with inbox := n.inbox.drop 1 })
      match m with
      | Msg.daoAck _ _ _ => w1
      | Msg.dis s => receive_dis w1 i s
      | Msg.dio s => receive_dio w1 i s
      | Msg.dao c p => receive_dao w1 i p c
      | Msg.data src dst => handle_packet (onRx w1) i src dst

/-- Broadcast loop of Node.discover_neighbors: DIS to every other in-range
node (the monitor was already counted once before the loop). -/
def discoverLoop (i : Nat) : World → List Nat → World
  | w, [] => w
  | w, j :: rest =>
      if j ≠ i ∧ distSq (nd w i).position (nd w j).position ≤ w.rangeSq
      then discoverLoop i (pushMsg w j (Msg.dis i)) rest
      else discoverLoop i w rest

/-- Node.discover_neighbors of node.py: one control/transmit count, then the
DIS broadcast to every other node within CONNECTION_RANGE. -/
def discover_neighbors (w : World) (i : Nat) : World :=
  discoverLoop i (onCtrlTx w) (List.range w.nodes.length)

/-- Broadcast loop of Node.send_dis: DIS to every other in-range node, with a
control/transmit count per recipient. -/
def sendDisLoop (i : Nat) : World → List Nat → World
  | w, [] => w
  | w, j :: rest =>
      if j ≠ i ∧ distSq (nd w i).position (nd w j).position ≤ w.rangeSq
      then sendDisLoop i (pushMsg (onCtrlTx w) j (Msg.dis i)) rest
      else sendDisLoop i w rest

/-- Node.send_dis of node.py. -/
def send_dis (w : World) (i : Nat) : World := sendDisLoop i w (List.range w.nodes.length)

/-- Advertisement loop of Node.send_dio: DIO to every current neighbor whose
recorded parent is not this node. -/
def sendDioLoop (i : Nat) : World → List Nat → World
  | w, [] => w
  | w, j :: rest =>
      if (nd w j).parent ≠ some i
      then sendDioLoop i (pushMsg (onCtrlTx w) j (Msg.dio i)) rest
      else sendDioLoop i w rest

/-- One pass of Node.send_dio's periodic loop body. -/
def send_dio (w : World) (i : Nat) : World := sendDioLoop i w (nd w i).neighbors

/-- One fire of Node.trickle_timer: DIS re-broadcast when the neighbor set is
empty, then `I = min(I * 2, Imax)` with `Imax = 8`, and the next fire offset
`t` is the value `tNew` drawn from `[Imin, I]`. -/
def trickle_fire (w : World) (i : Nat) (tNew : Rat) : World :=
  let w1 := if (nd w i).neighbors = [] then send_dis w i else w
  modifyNode w1 i (fun n => { n with I := min (n.I * 2) 8, t := tNew })

/-- The forged destination of malicious.py: `f"2001:db8::{fake_num:x}"`. -/
def fakePfx (n : Nat) : String := "2001:db8::" ++ hexStr n

/-- Eligible victims of RoutingTableOverloadAttack.launch: every node other
than the attacker whose downward-route table is non-empty. -/
def possible_victims (w : World) (attacker : Nat) : List Nat :=
  (List.range w.nodes.length).filter
    (fun j => j != attacker && decide (0 < (nd w j).downward_routes.length))

/-- One cycle of RoutingTableOverloadAttack.launch: when no victim is
eligible the cycle injects nothing, otherwise random.choice picks a victim
(modelled by the arbitrary index `pick` reduced modulo the list length) and
the victim's receive_dao is invoked directly as (forged prefix, attacker). -/
def attack_cycle (w : World) (attacker pick fakeNum : Nat) : World :=
  let vs := possible_victims w attacker
  if vs.isEmpty then w
  else receive_dao w (vs.getD (pick % vs.length) 0) (fakePfx fakeNum) attacker

/-- One iteration of generate_traffic in run_simulation.py: distinct random
source and destination nodes, on_data_packet_created, then the packet is
seeded into the source's own inbox via send_packet(pkt, src). -/
def gen_traffic (w : World) (src dst : Nat) : World :=
  if src = dst then w
  else send_packet (onDataSent w) src (nd w dst).pfx src

/-- Atomic scheduler events: each names one process body of the source. -/
inductive Ev where
  | inbox (i : Nat)
  | discover (i : Nat)
  | advertise (i : Nat)
  | trickle (i : Nat) (tNew : Rat)
  | attack (a pick fakeNum : Nat)
  | traffic (src dst : Nat)

/-- Event guards: indices are live nodes, the trickle draw lies in the range
random.uniform(Imin, I') produces, the forged suffix in randint's range. -/
def evOk (w : World) : Ev → Bool
  | .inbox i => decide (i < w.nodes.length) && !(nd w i).inbox.isEmpty
  | .discover i => decide (i < w.nodes.length)
  | .advertise i => decide (i < w.nodes.length)
  | .trickle i t =>
      decide (i < w.nodes.length) && decide (1 ≤ t) && decide (t ≤ min ((nd w i).I * 2) 8)
  | .attack a _ fakeNum =>
      decide (a < w.nodes.length) && decide (1000 ≤ fakeNum) && decide (fakeNum ≤ 9999)
  | .traffic src dst => decide (src < w.nodes.length) && decide (dst < w.nodes.length)

/-- Effect of one event. -/
def applyEv (w : World) : Ev → World
  | .inbox i => stepInbox w i
  | .discover i => discover_neighbors w i
  | .advertise i => send_dio w i
  | .trickle i t => trickle_fire w i t
  | .attack a pick fakeNum => attack_cycle w a pick fakeNum
  | .traffic src dst => gen_traffic w src dst

/-- One simulator step: some enabled event fires. -/
def step (w w' : World) : Prop := ∃ e, evOk w e = true ∧ w' = applyEv w e

/-- Reachability along steps. -/
def Reachable (w0 w : World) : Prop := Relation.ReflTransGen step w0 w

/-- A freshly created node, after Node.__init__ (max_downward_routes = 800,
I = Imin = 1, t = random.uniform(1, 1) = 1). -/
def initNode (i : Nat) (pos : Int × Int) (root : Bool) : NodeState :=
  { nodeId := i, position := pos, isRoot := root,
    pfx := if root then rootPfx else "2001:db8::" ++ hex2 i,
    parent := none, neighbors := [], downward_routes := [],
    max_downward_routes := 800, I := 1, t := 1, inbox := [] }

/-- The world right after environment.py's create_nodes has produced every
node (node 0 is the root) and before any process has run. -/
def mkWorld (ps : List (Int × Int)) (rSq : Int) : World :=
  { nodes := ps.enum.map (fun q => initNode q.1 q.2 (q.1 = 0)),
    rangeSq := rSq,
    monitor := { total_data_sent := 0, total_data_delivered := 0,
                 control_packets_sent := 0, txCount := 0, rxCount := 0 } }

/-- Run a list of events in order. -/
def runEvs (w : World) : List Ev → World
  | [] => w
  | e :: es => runEvs (applyEv w e) es

/-- Every event of the list is enabled when its turn comes. -/
def evsOk (w : World) : List Ev → Bool
  | [] => true
  | e :: es => evOk w e && evsOk (applyEv w e) es

theorem reachable_runEvs (es : List Ev) (w : World) (h : evsOk w es = true) :
    Reachable w (runEvs w es) := by
  induction es generalizing w with
  | nil => exact Relation.ReflTransGen.refl
  | cons e es ih =>
      simp only [evsOk, Bool.and_eq_true] at h
      exact Relation.ReflTransGen.head ⟨e, h.1, rfl⟩ (ih _ h.2)

theorem getD_set {α : Type} (l : List α) (i j : Nat) (a d : α) :
    (l.set i a).getD j d = if i = j ∧ i < l.length then a else l.getD j d := by
  induction l generalizing i j with
  | nil => simp
  | cons x xs ih =>
      cases i with
      | zero => cases j <;> simp [List.set]
      | succ i' =>
          cases j with
          | zero => simp [List.set]
          | succ j' =>
              simp only [List.set, List.getD_cons_succ, ih, List.length_cons]
              by_cases h : i' = j' ∧ i' < xs.length
              · simp [h, h.1, Nat.succ_lt_succ h.2]
              · have h' : ¬(i' + 1 = j' + 1 ∧ i' + 1 < xs.length + 1) := by
                  intro hc; exact h ⟨Nat.succ_injective hc.1, Nat.lt_of_succ_lt_succ hc.2⟩
                simp [h, h']

theorem nd_modifyNode (w : World) (i : Nat) (f : NodeState → NodeState) (j : Nat) :
    nd (modifyNode w i f) j = if i = j ∧ i < w.nodes.length then f (nd w i) else nd w j :=
  getD_set _ _ _ _ _

@[simp] theorem length_modifyNode (w : World) (i : Nat) (f : NodeState → NodeState) :
    (modifyNode w i f).nodes.length = w.nodes.length := by
  simp [modifyNode]

@[simp] theorem rangeSq_modifyNode (w : World) (i : Nat) (f : NodeState → NodeState) :
    (modifyNode w i f).rangeSq = w.rangeSq := rfl

@[simp] theorem monitor_modifyNode (w : World) (i : Nat) (f : NodeState → NodeState) :
    (modifyNode w i f).monitor = w.monitor := rfl

@[simp] theorem nd_withMon (w : World) (f : Monitor → Monitor) (j : Nat) :
    nd (withMon w f) j = nd w j := rfl

@[simp] theorem nodes_withMon (w : World) (f : Monitor → Monitor) :
    (withMon w f).nodes = w.nodes := rfl

@[simp] theorem rangeSq_withMon (w : World) (f : Monitor → Monitor) :
    (withMon w f).rangeSq = w.rangeSq := rfl

@[simp] theorem nd_onCtrlTx (w : World) (j : Nat) : nd (onCtrlTx w) j = nd w j := rfl

@[simp] theorem nodes_onCtrlTx (w : World) : (onCtrlTx w).nodes = w.nodes := rfl

@[simp] theorem rangeSq_onCtrlTx (w : World) : (onCtrlTx w).rangeSq = w.rangeSq := rfl

@[simp] theorem nd_onTx (w : World) (j : Nat) : nd (onTx w) j = nd w j := rfl

@[simp] theorem nodes_onTx (w : World) : (onTx w).nodes = w.nodes := rfl

@[simp] theorem rangeSq_onTx (w : World) : (onTx w).rangeSq = w.rangeSq := rfl

@[simp] theorem nd_onRx (w : World) (j : Nat) : nd (onRx w) j = nd w j := rfl

@[simp] theorem nodes_onRx (w : World) : (onRx w).nodes = w.nodes := rfl

@[simp] theorem nd_onDelivered (w : World) (j : Nat) : nd (onDelivered w) j = nd w j := rfl

@[simp] theorem nodes_onDelivered (w : World) : (onDelivered w).nodes = w.nodes := rfl

@[simp] theorem nd_onDataSent (w : World) (j : Nat) : nd (onDataSent w) j = nd w j := rfl

@[simp] theorem nodes_onDataSent (w : World) : (onDataSent w).nodes = w.nodes := rfl

theorem nd_pushMsg (w : World) (i : Nat) (m : Msg) (j : Nat) :
    nd (pushMsg w i m) j =
      if i = j ∧ i < w.nodes.length
      then { nd w j with inbox := (nd w j).inbox ++ [m] }
      else nd w j := by
  rw [pushMsg, nd_modifyNode]
  by_cases h : i = j ∧ i < w.nodes.length
  · simp [h, h.1]
  · simp [h]

@[simp] theorem length_pushMsg (w : World) (i : Nat) (m : Msg) :
    (pushMsg w i m).nodes.length = w.nodes.length := by
  simp [pushMsg]

@[simp] theorem rangeSq_pushMsg (w : World) (i : Nat) (m : Msg) :
    (pushMsg w i m).rangeSq = w.rangeSq := rfl

/-- A world evolution that leaves every protocol field of every node intact,
touching only inboxes and the monitor. -/
structure InboxOnly (w w' : World) : Prop where
  len : w'.nodes.length = w.nodes.length
  rng : w'.rangeSq = w.rangeSq
  nodeId : ∀ j, (nd w' j).nodeId = (nd w j).nodeId
  pos : ∀ j, (nd w' j).position = (nd w j).position
  root : ∀ j, (nd w' j).isRoot = (nd w j).isRoot
  pfx : ∀ j, (nd w' j).pfx = (nd w j).pfx
  par : ∀ j, (nd w' j).parent = (nd w j).parent
  nbrs : ∀ j, (nd w' j).neighbors = (nd w j).neighbors
  routes : ∀ j, (nd w' j).downward_routes = (nd w j).downward_routes
  maxr : ∀ j, (nd w' j).max_downward_routes = (nd w j).max_downward_routes
  itv : ∀ j, (nd w' j).I = (nd w j).I
  off : ∀ j, (nd w' j).t = (nd w j).t

theorem inboxOnly_refl (w : World) : InboxOnly w w :=
  ⟨rfl, rfl, fun _ => rfl, fun _ => rfl, fun _ => rfl, fun _ => rfl, fun _ => rfl,
   fun _ => rfl, fun _ => rfl, fun _ => rfl, fun _ => rfl, fun _ => rfl⟩

theorem inboxOnly_trans {w1 w2 w3 : World}
    (a : InboxOnly w1 w2) (b : InboxOnly w2 w3) : InboxOnly w1 w3 :=
  ⟨b.len.trans a.len, b.rng.trans a.rng,
   fun j => (b.nodeId j).trans (a.nodeId j), fun j => (b.pos j).trans (a.pos j),
   fun j => (b.root j).trans (a.root j), fun j => (b.pfx j).trans (a.pfx j),
   fun j => (b.par j).trans (a.par j), fun j => (b.nbrs j).trans (a.nbrs j),
   fun j => (b.routes j).trans (a.routes j), fun j => (b.maxr j).trans (a.maxr j),
   fun j => (b.itv j).trans (a.itv j), fun j => (b.off j).trans (a.off j)⟩

theorem inboxOnly_pushMsg (w : World) (i : Nat) (m : Msg) : InboxOnly w (pushMsg w i m) := by
  refine ⟨by simp, rfl, ?_, ?_, ?_, ?_, ?_, ?_, ?_, ?_, ?_, ?_⟩ <;>
    (intro j; rw [nd_pushMsg]; split <;> simp)

theorem inboxOnly_withMon (w : World) (f : Monitor → Monitor) : InboxOnly w (withMon w f) :=
  ⟨rfl, rfl, fun _ => rfl, fun _ => rfl, fun _ => rfl, fun _ => rfl, fun _ => rfl,
   fun _ => rfl, fun _ => rfl, fun _ => rfl, fun _ => rfl, fun _ => rfl⟩

theorem inboxOnly_onCtrlTx (w : World) : InboxOnly w (onCtrlTx w) := inboxOnly_withMon w _

theorem inboxOnly_discoverLoop (i : Nat) (l : List Nat) (w : World) :
    InboxOnly w (discoverLoop i w l) := by
  induction l generalizing w with
  | nil => exact inboxOnly_refl w
  | cons j rest ih =>
      rw [discoverLoop]
      split
      · exact inboxOnly_trans (inboxOnly_pushMsg w j (Msg.dis i)) (ih _)
      · exact ih w

theorem inboxOnly_sendDisLoop (i : Nat) (l : List Nat) (w : World) :
    InboxOnly w (sendDisLoop i w l) := by
  induction l generalizing w with
  | nil => exact inboxOnly_refl w
  | cons j rest ih =>
      rw [sendDisLoop]
      split
      · exact inboxOnly_trans
          (inboxOnly_trans (inboxOnly_onCtrlTx w) (inboxOnly_pushMsg _ j (Msg.dis i))) (ih _)
      · exact ih w

theorem inboxOnly_sendDioLoop (i : Nat) (l : List Nat) (w : World) :
    InboxOnly w (sendDioLoop i w l) := by
  induction l generalizing w with
  | nil => exact inboxOnly_refl w
  | cons j rest ih =>
      rw [sendDioLoop]
      split
      · exact inboxOnly_trans
          (inboxOnly_trans (inboxOnly_onCtrlTx w) (inboxOnly_pushMsg _ j (Msg.dio i))) (ih _)
      · exact ih w

theorem inboxOnly_discover (w : World) (i : Nat) : InboxOnly w (discover_neighbors w i) :=
  inboxOnly_trans (inboxOnly_onCtrlTx w) (inboxOnly_discoverLoop i _ _)

theorem inboxOnly_send_dis (w : World) (i : Nat) : InboxOnly w (send_dis w i) :=
  inboxOnly_sendDisLoop i _ w

theorem inboxOnly_send_dio (w : World) (i : Nat) : InboxOnly w (send_dio w i) :=
  inboxOnly_sendDioLoop i _ w

theorem inboxOnly_send_packet (w : World) (s : Nat) (d : String) (n : Nat) :
    InboxOnly w (send_packet w s d n) :=
  inboxOnly_trans (inboxOnly_withMon w _) (inboxOnly_pushMsg _ n _)

theorem inboxOnly_handle_packet (w : World) (i s : Nat) (d : String) :
    InboxOnly w (handle_packet w i s d) := by
  rw [handle_packet]
  split
  · exact inboxOnly_withMon w _
  · split
    · exact inboxOnly_send_packet w s d _
    · split
      · exact inboxOnly_send_packet w s d _
      · exact inboxOnly_refl w

theorem inboxOnly_gen_traffic (w : World) (src dst : Nat) :
    InboxOnly w (gen_traffic w src dst) := by
  rw [gen_traffic]
  split
  · exact inboxOnly_refl w
  · exact inboxOnly_trans (inboxOnly_withMon w _) (inboxOnly_send_packet _ src _ src)

theorem nd_of_ge (w : World) (i : Nat) (h : w.nodes.length ≤ i) : nd w i = default :=
  List.getD_eq_default _ _ h

theorem inbox_pushMsg (w : World) (i : Nat) (m : Msg) (j : Nat) :
    (nd (pushMsg w i m) j).inbox =
      if i = j ∧ i < w.nodes.length then (nd w j).inbox ++ [m] else (nd w j).inbox := by
  rw [nd_pushMsg]
  split <;> simp

theorem dictGet_dictSet_self (l : List (String × Nat)) (k : String) (v : Nat) :
    dictGet (dictSet l k v) k = some v := by
  induction l with
  | nil => simp [dictSet, dictGet]
  | cons e rest ih =>
      obtain ⟨k', v'⟩ := e
      by_cases h : k' = k
      · simp [dictSet, dictGet, h]
      · simp [dictSet, dictGet, h, ih]

theorem dictGet_dictSet_ne (l : List (String × Nat)) (k k' : String) (v : Nat) (h : k ≠ k') :
    dictGet (dictSet l k v) k' = dictGet l k' := by
  induction l with
  | nil => simp [dictSet, dictGet, h]
  | cons e rest ih =>
      obtain ⟨k0, v0⟩ := e
      by_cases h0 : k0 = k
      · subst h0
        simp [dictSet, dictGet, h]
      · by_cases h1 : k0 = k'
        · simp [dictSet, dictGet, h0, h1, Ne.symm h]
        · simp [dictSet, dictGet, h0, h1, ih]

theorem length_dictSet (l : List (String × Nat)) (k : String) (v : Nat) :
    (dictSet l k v).length =
      if dictGet l k = none then l.length + 1 else l.length := by
  induction l with
  | nil => simp [dictSet, dictGet]
  | cons e rest ih =>
      obtain ⟨k', v'⟩ := e
      by_cases h : k' = k
      · simp [dictSet, dictGet, h]
      · simp only [dictSet, dictGet, if_neg h, List.length_cons, ih]
        split <;> simp

/-- The install branch of receive_dao in normal form. -/
theorem receive_dao_eq_install (w : World) (r : Nat) (p : String) (c : Nat)
    (h1 : ¬ dictGet (nd w r).downward_routes p = some c)
    (h2 : (nd w r).downward_routes.length < (nd w r).max_downward_routes) :
    receive_dao w r p c =
      (let w1 := modifyNode w r
        (fun m => { m with downward_routes := dictSet m.downward_routes p c });
       let w2 := match (nd w r).parent with
         | some q => pushMsg (onCtrlTx w1) q (Msg.dao c p)
         | none => w1;
       pushMsg (onCtrlTx w2) c (Msg.daoAck r p 0)) := by
  simp only [receive_dao]
  rw [if_neg h1, if_neg (not_le.mpr h2)]

theorem receive_dao_dup (w : World) (r : Nat) (p : String) (c : Nat)
    (h : dictGet (nd w r).downward_routes p = some c) :
    receive_dao w r p c = w := by
  simp only [receive_dao]
  rw [if_pos h]

theorem receive_dao_overloaded (w : World) (r : Nat) (p : String) (c : Nat)
    (h1 : ¬ dictGet (nd w r).downward_routes p = some c)
    (h2 : (nd w r).max_downward_routes ≤ (nd w r).downward_routes.length) :
    receive_dao w r p c = w := by
  simp only [receive_dao]
  rw [if_neg h1, if_pos h2]

theorem lt_length_of_cap (w : World) (r : Nat)
    (h2 : (nd w r).downward_routes.length < (nd w r).max_downward_routes) :
    r < w.nodes.length := by
  by_contra h
  rw [nd_of_ge w r (le_of_not_lt h)] at h2
  simp [default] at h2

/-- In the install branch, everything after the route-table update only adds
inbox messages and monitor counts. -/
theorem receive_dao_install_inboxOnly (w : World) (r : Nat) (p : String) (c : Nat)
    (h1 : ¬ dictGet (nd w r).downward_routes p = some c)
    (h2 : (nd w r).downward_routes.length < (nd w r).max_downward_routes) :
    InboxOnly
      (modifyNode w r (fun m => { m with downward_routes := dictSet m.downward_routes p c }))
      (receive_dao w r p c) := by
  rw [receive_dao_eq_install w r p c h1 h2]
  cases hp : (nd w r).parent with
  | none =>
      simp only [hp]
      exact inboxOnly_trans (inboxOnly_onCtrlTx _) (inboxOnly_pushMsg _ c _)
  | some q =>
      simp only [hp]
      exact inboxOnly_trans
        (inboxOnly_trans (inboxOnly_onCtrlTx _) (inboxOnly_pushMsg _ q _))
        (inboxOnly_trans (inboxOnly_onCtrlTx _) (inboxOnly_pushMsg _ c _))

theorem receive_dao_install_routes (w : World) (r : Nat) (p : String) (c : Nat)
    (h1 : ¬ dictGet (nd w r).downward_routes p = some c)
    (h2 : (nd w r).downward_routes.length < (nd w r).max_downward_routes) :
    (nd (receive_dao w r p c) r).downward_routes = dictSet (nd w r).downward_routes p c
    ∧ ∀ j, j ≠ r → (nd (receive_dao w r p c) j).downward_routes = (nd w j).downward_routes := by
  have hr : r < w.nodes.length := lt_length_of_cap w r h2
  have hio := receive_dao_install_inboxOnly w r p c h1 h2
  constructor
  · rw [hio.routes r, nd_modifyNode]
    simp [hr]
  · intro j hj
    rw [hio.routes j, nd_modifyNode]
    have hrj : ¬(r = j) := fun h => hj h.symm
    simp [hrj]

theorem inboxOnly_push_ctrl (w : World) (i : Nat) (m : Msg) :
    InboxOnly w (pushMsg (onCtrlTx w) i m) :=
  inboxOnly_trans (inboxOnly_onCtrlTx w) (inboxOnly_pushMsg _ i m)

theorem inboxOnly_modify_inbox (w : World) (i : Nat) (g : List Msg → List Msg) :
    InboxOnly w (modifyNode w i (fun n => { n with inbox := g n.inbox })) := by
  refine ⟨by simp, rfl, ?_, ?_, ?_, ?_, ?_, ?_, ?_, ?_, ?_, ?_⟩ <;>
    (intro j; rw [nd_modifyNode]; split <;> rename_i h <;> first | rfl | (rw [h.1]))

/-- Step-invariance gives reachability-invariance. -/
theorem invariant_reachable {P : World → Prop}
    (hstep : ∀ w e, evOk w e = true → P w → P (applyEv w e))
    {w0 w : World} (h0 : P w0) (hr : Reachable w0 w) : P w := by
  induction hr with
  | refl => exact h0
  | tail _ hs ih =>
      obtain ⟨e, he, rfl⟩ := hs
      exact hstep _ _ he ih

/-- A world evolution that may change neighbor lists, inboxes and the monitor
but nothing else. -/
structure NbrsOnly (w w' : World) : Prop where
  len : w'.nodes.length = w.nodes.length
  rng : w'.rangeSq = w.rangeSq
  nodeId : ∀ j, (nd w' j).nodeId = (nd w j).nodeId
  pos : ∀ j, (nd w' j).position = (nd w j).position
  root : ∀ j, (nd w' j).isRoot = (nd w j).isRoot
  pfx : ∀ j, (nd w' j).pfx = (nd w j).pfx
  par : ∀ j, (nd w' j).parent = (nd w j).parent
  routes : ∀ j, (nd w' j).downward_routes = (nd w j).downward_routes
  maxr : ∀ j, (nd w' j).max_downward_routes = (nd w j).max_downward_routes
  itv : ∀ j, (nd w' j).I = (nd w j).I
  off : ∀ j, (nd w' j).t = (nd w j).t

/-- A world evolution that may change one node's parent and prefix, inboxes
and the monitor but nothing else. -/
structure ParentOnly (w w' : World) : Prop where
  len : w'.nodes.length = w.nodes.length
  rng : w'.rangeSq = w.rangeSq
  nodeId : ∀ j, (nd w' j).nodeId = (nd w j).nodeId
  pos : ∀ j, (nd w' j).position = (nd w j).position
  root : ∀ j, (nd w' j).isRoot = (nd w j).isRoot
  nbrs : ∀ j, (nd w' j).neighbors = (nd w j).neighbors
  routes : ∀ j, (nd w' j).downward_routes = (nd w j).downward_routes
  maxr : ∀ j, (nd w' j).max_downward_routes = (nd w j).max_downward_routes
  itv : ∀ j, (nd w' j).I = (nd w j).I
  off : ∀ j, (nd w' j).t = (nd w j).t

/-- A world evolution that may change one node's trickle fields, inboxes and
the monitor but nothing else. -/
structure TimerOnly (w w' : World) : Prop where
  len : w'.nodes.length = w.nodes.length
  rng : w'.rangeSq = w.rangeSq
  nodeId : ∀ j, (nd w' j).nodeId = (nd w j).nodeId
  pos : ∀ j, (nd w' j).position = (nd w j).position
  root : ∀ j, (nd w' j).isRoot = (nd w j).isRoot
  pfx : ∀ j, (nd w' j).pfx = (nd w j).pfx
  par : ∀ j, (nd w' j).parent = (nd w j).parent
  nbrs : ∀ j, (nd w' j).neighbors = (nd w j).neighbors
  routes : ∀ j, (nd w' j).downward_routes = (nd w j).downward_routes
  maxr : ∀ j, (nd w' j).max_downward_routes = (nd w j).max_downward_routes

/-- A world evolution that may change route tables, inboxes and the monitor
but nothing else. -/
structure RoutesOnly (w w' : World) : Prop where
  len : w'.nodes.length = w.nodes.length
  rng : w'.rangeSq = w.rangeSq
  nodeId : ∀ j, (nd w' j).nodeId = (nd w j).nodeId
  pos : ∀ j, (nd w' j).position = (nd w j).position
  root : ∀ j, (nd w' j).isRoot = (nd w j).isRoot
  pfx : ∀ j, (nd w' j).pfx = (nd w j).pfx
  par : ∀ j, (nd w' j).parent = (nd w j).parent
  nbrs : ∀ j, (nd w' j).neighbors = (nd w j).neighbors
  maxr : ∀ j, (nd w' j).max_downward_routes = (nd w j).max_downward_routes
  itv : ∀ j, (nd w' j).I = (nd w j).I
  off : ∀ j, (nd w' j).t = (nd w j).t

theorem nbrsOnly_ofInboxOnly {w w' : World} (h : InboxOnly w w') : NbrsOnly w w' :=
  ⟨h.len, h.rng, h.nodeId, h.pos, h.root, h.pfx, h.par, h.routes, h.maxr, h.itv, h.off⟩

theorem parentOnly_ofInboxOnly {w w' : World} (h : InboxOnly w w') : ParentOnly w w' :=
  ⟨h.len, h.rng, h.nodeId, h.pos, h.root, h.nbrs, h.routes, h.maxr, h.itv, h.off⟩

theorem timerOnly_ofInboxOnly {w w' : World} (h : InboxOnly w w') : TimerOnly w w' :=
  ⟨h.len, h.rng, h.nodeId, h.pos, h.root, h.pfx, h.par, h.nbrs, h.routes, h.maxr⟩

theorem routesOnly_ofInboxOnly {w w' : World} (h : InboxOnly w w') : RoutesOnly w w' :=
  ⟨h.len, h.rng, h.nodeId, h.pos, h.root, h.pfx, h.par, h.nbrs, h.maxr, h.itv, h.off⟩

theorem nbrsOnly_trans {w1 w2 w3 : World} (a : NbrsOnly w1 w2) (b : NbrsOnly w2 w3) :
    NbrsOnly w1 w3 :=
  ⟨b.len.trans a.len, b.rng.trans a.rng,
   fun j => (b.nodeId j).trans (a.nodeId j), fun j => (b.pos j).trans (a.pos j),
   fun j => (b.root j).trans (a.root j), fun j => (b.pfx j).trans (a.pfx j),
   fun j => (b.par j).trans (a.par j), fun j => (b.routes j).trans (a.routes j),
   fun j => (b.maxr j).trans (a.maxr j), fun j => (b.itv j).trans (a.itv j),
   fun j => (b.off j).trans (a.off j)⟩

theorem parentOnly_trans {w1 w2 w3 : World} (a : ParentOnly w1 w2) (b : ParentOnly w2 w3) :
    ParentOnly w1 w3 :=
  ⟨b.len.trans a.len, b.rng.trans a.rng,
   fun j => (b.nodeId j).trans (a.nodeId j), fun j => (b.pos j).trans (a.pos j),
   fun j => (b.root j).trans (a.root j), fun j => (b.nbrs j).trans (a.nbrs j),
   fun j => (b.routes j).trans (a.routes j), fun j => (b.maxr j).trans (a.maxr j),
   fun j => (b.itv j).trans (a.itv j), fun j => (b.off j).trans (a.off j)⟩

theorem timerOnly_trans {w1 w2 w3 : World} (a : TimerOnly w1 w2) (b : TimerOnly w2 w3) :
    TimerOnly w1 w3 :=
  ⟨b.len.trans a.len, b.rng.trans a.rng,
   fun j => (b.nodeId j).trans (a.nodeId j), fun j => (b.pos j).trans (a.pos j),
   fun j => (b.root j).trans (a.root j), fun j => (b.pfx j).trans (a.pfx j),
   fun j => (b.par j).trans (a.par j), fun j => (b.nbrs j).trans (a.nbrs j),
   fun j => (b.routes j).trans (a.routes j), fun j => (b.maxr j).trans (a.maxr j)⟩

theorem nbrsOnly_modify_nbrs (w : World) (i : Nat) (g : List Nat → List Nat) :
    NbrsOnly w (modifyNode w i (fun n => { n with neighbors := g n.neighbors })) := by
  refine ⟨by simp, rfl, ?_, ?_, ?_, ?_, ?_, ?_, ?_, ?_, ?_⟩ <;>
    (intro j; rw [nd_modifyNode]; split <;> rename_i h <;> first | rw [h.1] | rfl)

theorem parentOnly_modify (w : World) (i : Nat) (q : Option Nat) (x : String) :
    ParentOnly w (modifyNode w i (fun n => { n with parent := q, pfx := x })) := by
  refine ⟨by simp, rfl, ?_, ?_, ?_, ?_, ?_, ?_, ?_, ?_⟩ <;>
    (intro j; rw [nd_modifyNode]; split <;> rename_i h <;> first | rw [h.1] | rfl)

theorem timerOnly_modify (w : World) (i : Nat) (x y : Rat) :
    TimerOnly w (modifyNode w i (fun n => { n with I := x, t := y })) := by
  refine ⟨by simp, rfl, ?_, ?_, ?_, ?_, ?_, ?_, ?_, ?_⟩ <;>
    (intro j; rw [nd_modifyNode]; split <;> rename_i h <;> first | rw [h.1] | rfl)

theorem routesOnly_modify (w : World) (i : Nat) (g : List (String × Nat) → List (String × Nat)) :
    RoutesOnly w (modifyNode w i (fun n => { n with downward_routes := g n.downward_routes })) := by
  refine ⟨by simp, rfl, ?_, ?_, ?_, ?_, ?_, ?_, ?_, ?_, ?_⟩ <;>
    (intro j; rw [nd_modifyNode]; split <;> rename_i h <;> first | rw [h.1] | rfl)

/-- receive_dis only touches neighbor lists, inboxes and the monitor. -/
theorem nbrsOnly_receive_dis (w : World) (r s : Nat) : NbrsOnly w (receive_dis w r s) := by
  simp only [receive_dis]
  split
  · refine nbrsOnly_trans (nbrsOnly_modify_nbrs w r (fun l => l ++ [s])) ?_
    split
    · exact nbrsOnly_ofInboxOnly (inboxOnly_push_ctrl _ s _)
    · exact nbrsOnly_trans (nbrsOnly_modify_nbrs _ s (fun l => l ++ [r]))
        (nbrsOnly_ofInboxOnly (inboxOnly_push_ctrl _ s _))
  · exact nbrsOnly_ofInboxOnly (inboxOnly_refl w)

/-- adoptParent only touches the receiver's parent and prefix, the sender's
inbox and the monitor. -/
theorem parentOnly_adoptParent (w : World) (r s : Nat) : ParentOnly w (adoptParent w r s) :=
  parentOnly_trans (parentOnly_modify w r (some s) (derive (nd w s).pfx (nd w r).nodeId))
    (parentOnly_ofInboxOnly (inboxOnly_push_ctrl _ s _))

/-- receive_dio either does nothing or, for a non-root receiver, runs
adoptParent on the sender. -/
theorem receive_dio_cases (w : World) (r s : Nat) :
    receive_dio w r s = w
    ∨ ((nd w r).isRoot = false ∧ receive_dio w r s = adoptParent w r s) := by
  by_cases hroot : (nd w r).isRoot = true
  · left
    simp only [receive_dio]
    rw [if_pos hroot]
  · have hroot' : (nd w r).isRoot = false := by
      cases h : (nd w r).isRoot
      · rfl
      · exact absurd h hroot
    simp only [receive_dio]
    rw [if_neg hroot]
    split
    · exact Or.inr ⟨hroot', rfl⟩
    · split
      · exact Or.inr ⟨hroot', rfl⟩
      · exact Or.inl rfl

theorem parentOnly_receive_dio (w : World) (r s : Nat) : ParentOnly w (receive_dio w r s) := by
  rcases receive_dio_cases w r s with h | ⟨_, h⟩
  · rw [h]; exact parentOnly_ofInboxOnly (inboxOnly_refl w)
  · rw [h]; exact parentOnly_adoptParent w r s

/-- trickle_fire only touches the firing node's trickle fields, inboxes and
the monitor. -/
theorem timerOnly_trickle (w : World) (i : Nat) (tNew : Rat) :
    TimerOnly w (trickle_fire w i tNew) := by
  rw [trickle_fire]
  split
  · exact timerOnly_trans (timerOnly_ofInboxOnly (inboxOnly_send_dis w i))
      (timerOnly_modify _ i _ _)
  · exact timerOnly_modify w i _ _

/-- receive_dao only touches the receiver's route table, inboxes and the
monitor. -/
theorem routesOnly_receive_dao (w : World) (r : Nat) (p : String) (c : Nat) :
    RoutesOnly w (receive_dao w r p c) := by
  by_cases h1 : dictGet (nd w r).downward_routes p = some c
  · rw [receive_dao_dup w r p c h1]
    exact routesOnly_ofInboxOnly (inboxOnly_refl w)
  · by_cases h2 : (nd w r).max_downward_routes ≤ (nd w r).downward_routes.length
    · rw [receive_dao_overloaded w r p c h1 h2]
      exact routesOnly_ofInboxOnly (inboxOnly_refl w)
    · have hio := receive_dao_install_inboxOnly w r p c h1 (not_le.mp h2)
      have h0 := routesOnly_modify w r (fun l => dictSet l p c)
      exact ⟨hio.len.trans h0.len, hio.rng.trans h0.rng,
        fun j => (hio.nodeId j).trans (h0.nodeId j), fun j => (hio.pos j).trans (h0.pos j),
        fun j => (hio.root j).trans (h0.root j), fun j => (hio.pfx j).trans (h0.pfx j),
        fun j => (hio.par j).trans (h0.par j), fun j => (hio.nbrs j).trans (h0.nbrs j),
        fun j => (hio.maxr j).trans (h0.maxr j), fun j => (hio.itv j).trans (h0.itv j),
        fun j => (hio.off j).trans (h0.off j)⟩

theorem inbox_install (w : World) (r : Nat) (p : String) (c : Nat) (j : Nat) :
    (nd (modifyNode w r
        (fun m => { m with downward_routes := dictSet m.downward_routes p c })) j).inbox
      = (nd w j).inbox := by
  rw [nd_modifyNode]
  split <;> rename_i h <;> first | rw [h.1] | rfl

/-- In the install branch, the forwarded DAO lands once in the parent's inbox
and the success DAO-ACK lands once in the child's inbox. -/
theorem receive_dao_install_counts (w : World) (r : Nat) (p : String) (c : Nat)
    (h1 : ¬ dictGet (nd w r).downward_routes p = some c)
    (h2 : (nd w r).downward_routes.length < (nd w r).max_downward_routes) :
    (∀ q, (nd w r).parent = some q → q < w.nodes.length →
      ((nd (receive_dao w r p c) q).inbox).count (Msg.dao c p)
        = ((nd w q).inbox).count (Msg.dao c p) + 1)
  ∧ (c < w.nodes.length →
      ((nd (receive_dao w r p c) c).inbox).count (Msg.daoAck r p 0)
        = ((nd w c).inbox).count (Msg.daoAck r p 0) + 1) := by
  rw [receive_dao_eq_install w r p c h1 h2]
  constructor
  · intro q hp hq
    simp only [hp]
    simp only [inbox_pushMsg, nd_onCtrlTx, nodes_onCtrlTx, length_pushMsg, length_modifyNode,
      inbox_install, hq, and_true]
    split
    · simp [List.count_append]
    · simp [List.count_append]
  · intro hc
    cases hp : (nd w r).parent with
    | none =>
        simp only [hp]
        simp only [inbox_pushMsg, nd_onCtrlTx, nodes_onCtrlTx, length_pushMsg, length_modifyNode,
          inbox_install, hc, and_true]
        simp [List.count_append]
    | some q =>
        simp only [hp]
        simp only [inbox_pushMsg, nd_onCtrlTx, nodes_onCtrlTx, length_pushMsg, length_modifyNode,
          inbox_install, hc, and_true]
        split
        · split <;> simp [List.count_append]
        · rename_i hf
          exact absurd trivial hf

theorem nd_mkWorld (ps : List (Int × Int)) (rSq : Int) (i : Nat) (h : i < ps.length) :
    nd (mkWorld ps rSq) i = initNode i (ps.getD i (0, 0)) (i = 0) := by
  have hlen : (mkWorld ps rSq).nodes.length = ps.length := by
    simp [mkWorld]
  rw [nd, List.getD_eq_getElem _ _ (by rw [hlen]; exact h)]
  simp only [mkWorld]
  rw [List.getElem_map]
  congr 1 <;> rw [List.getElem_enum]
  exact (List.getD_eq_getElem ps (0, 0) h).symm

theorem length_mkWorld (ps : List (Int × Int)) (rSq : Int) :
    (mkWorld ps rSq).nodes.length = ps.length := by
  simp [mkWorld]

/-- The capacity invariant of every downward-route table. -/
def RoutesBound (w : World) : Prop :=
  ∀ i, (nd w i).downward_routes.length ≤ (nd w i).max_downward_routes

theorem routesBound_mono {w w' : World}
    (hr : ∀ j, (nd w' j).downward_routes = (nd w j).downward_routes)
    (hm : ∀ j, (nd w' j).max_downward_routes = (nd w j).max_downward_routes)
    (h : RoutesBound w) : RoutesBound w' := by
  intro i
  rw [hr i, hm i]
  exact h i

theorem routesBound_receive_dao (w : World) (r : Nat) (p : String) (c : Nat)
    (h : RoutesBound w) : RoutesBound (receive_dao w r p c) := by
  by_cases h1 : dictGet (nd w r).downward_routes p = some c
  · rw [receive_dao_dup w r p c h1]; exact h
  · by_cases h2 : (nd w r).max_downward_routes ≤ (nd w r).downward_routes.length
    · rw [receive_dao_overloaded w r p c h1 h2]; exact h
    · have h2' := not_le.mp h2
      intro i
      have hmax := (routesOnly_receive_dao w r p c).maxr i
      by_cases hir : i = r
      · subst hir
        rw [(receive_dao_install_routes w i p c h1 h2').1, hmax, length_dictSet]
        split
        · exact Nat.succ_le_of_lt h2'
        · exact h i
      · rw [(receive_dao_install_routes w r p c h1 h2').2 i hir, hmax]
        exact h i

theorem routesBound_applyEv (w : World) (e : Ev) (h : RoutesBound w) :
    RoutesBound (applyEv w e) := by
  cases e with
  | inbox i =>
      simp only [applyEv, stepInbox]
      cases hib : (nd w i).inbox with
      | nil => exact h
      | cons m rest =>
          have h1 : RoutesBound (modifyNode w i (fun n => { n with inbox := n.inbox.drop 1 })) :=
            routesBound_mono (inboxOnly_modify_inbox w i _).routes
              (inboxOnly_modify_inbox w i _).maxr h
          cases m with
          | daoAck f cp st => exact h1
          | dis s =>
              exact routesBound_mono (nbrsOnly_receive_dis _ i s).routes
                (nbrsOnly_receive_dis _ i s).maxr h1
          | dio s =>
              exact routesBound_mono (parentOnly_receive_dio _ i s).routes
                (parentOnly_receive_dio _ i s).maxr h1
          | dao cn cp => exact routesBound_receive_dao _ i cp cn h1
          | data src dst =>
              have hio : InboxOnly
                  (modifyNode w i (fun n => { n with inbox := List.drop 1 n.inbox }))
                  (handle_packet
                    (onRx (modifyNode w i (fun n => { n with inbox := List.drop 1 n.inbox })))
                    i src dst) :=
                inboxOnly_trans (inboxOnly_withMon _ _) (inboxOnly_handle_packet _ i src dst)
              exact routesBound_mono hio.routes hio.maxr h1
  | discover i =>
      exact routesBound_mono (inboxOnly_discover w i).routes (inboxOnly_discover w i).maxr h
  | advertise i =>
      exact routesBound_mono (inboxOnly_send_dio w i).routes (inboxOnly_send_dio w i).maxr h
  | trickle i t =>
      exact routesBound_mono (timerOnly_trickle w i t).routes (timerOnly_trickle w i t).maxr h
  | attack a pick fakeNum =>
      simp only [applyEv, attack_cycle]
      split
      · exact h
      · exact routesBound_receive_dao _ _ _ _ h
  | traffic src dst =>
      exact routesBound_mono (inboxOnly_gen_traffic w src dst).routes
        (inboxOnly_gen_traffic w src dst).maxr h

theorem routesBound_mkWorld (ps : List (Int × Int)) (rSq : Int) :
    RoutesBound (mkWorld ps rSq) := by
  intro i
  by_cases h : i < ps.length
  · rw [nd_mkWorld ps rSq i h]
    simp [initNode]
  · rw [nd_of_ge _ _ (by rw [length_mkWorld]; exact le_of_not_lt h)]
    exact Nat.le.refl

/-- The zeroed performance monitor. -/
def mon0 : Monitor :=
  { total_data_sent := 0, total_data_delivered := 0, control_packets_sent := 0,
    txCount := 0, rxCount := 0 }

/-- C3: for every node, re-issuing a DAO whose (prefix, child) mapping is
already installed in its downward-route table changes nothing at all — no
state change, no acknowledgment, no upstream forward — and consequently
handling the same DAO twice is equal to handling it once. -/
theorem C3_dao_idempotent (w : World) (r : Nat) (p : String) (c : Nat) :
    (dictGet (nd w r).downward_routes p = some c → receive_dao w r p c = w)
    ∧ receive_dao (receive_dao w r p c) r p c = receive_dao w r p c := by
  refine ⟨receive_dao_dup w r p c, ?_⟩
  by_cases h1 : dictGet (nd w r).downward_routes p = some c
  · rw [receive_dao_dup w r p c h1, receive_dao_dup w r p c h1]
  · by_cases h2 : (nd w r).max_downward_routes ≤ (nd w r).downward_routes.length
    · rw [receive_dao_overloaded w r p c h1 h2, receive_dao_overloaded w r p c h1 h2]
    · have hroutes := (receive_dao_install_routes w r p c h1 (not_le.mp h2)).1
      exact receive_dao_dup _ r p c (by rw [hroutes]; exact dictGet_dictSet_self _ p c)

/-- Concrete one-node world with route "a" → 1 installed, for the C3 witness. -/
def wC3 : World :=
  { nodes := [{ initNode 0 (0, 0) true with downward_routes := [("a", 1)] }],
    rangeSq := 0, monitor := mon0 }

theorem C3_witness :
    dictGet (nd wC3 0).downward_routes "a" = some 1 ∧ receive_dao wC3 0 "a" 1 = wC3 :=
  ⟨by decide, (C3_dao_idempotent wC3 0 "a" 1).1 (by decide)⟩

/-- C4: a DAO (p, c) that is neither a duplicate nor blocked by a full table
installs the mapping p → c, forwards the same (p, c) as a new DAO to the
receiver's parent when one exists, and unconditionally acknowledges the child
with success status 0. -/
theorem C4_dao_install_forward_ack (w : World) (r : Nat) (p : String) (c : Nat)
    (h1 : ¬ dictGet (nd w r).downward_routes p = some c)
    (h2 : (nd w r).downward_routes.length < (nd w r).max_downward_routes) :
    dictGet (nd (receive_dao w r p c) r).downward_routes p = some c
  ∧ (∀ q, (nd w r).parent = some q → q < w.nodes.length →
      ((nd (receive_dao w r p c) q).inbox).count (Msg.dao c p)
        = ((nd w q).inbox).count (Msg.dao c p) + 1)
  ∧ (c < w.nodes.length →
      ((nd (receive_dao w r p c) c).inbox).count (Msg.daoAck r p 0)
        = ((nd w c).inbox).count (Msg.daoAck r p 0) + 1) := by
  refine ⟨?_, (receive_dao_install_counts w r p c h1 h2).1,
    (receive_dao_install_counts w r p c h1 h2).2⟩
  rw [(receive_dao_install_routes w r p c h1 h2).1]
  exact dictGet_dictSet_self _ p c

/-- Concrete three-node world (node 1 parented to node 0) for the C4 witness. -/
def wC4 : World :=
  { nodes := [initNode 0 (0, 0) true,
              { initNode 1 (1, 0) false with parent := some 0 },
              initNode 2 (2, 0) false],
    rangeSq := 100, monitor := mon0 }

theorem C4_witness :
    dictGet (nd (receive_dao wC4 1 "x" 2) 1).downward_routes "x" = some 2
  ∧ ((nd (receive_dao wC4 1 "x" 2) 0).inbox).count (Msg.dao 2 "x")
      = ((nd wC4 0).inbox).count (Msg.dao 2 "x") + 1
  ∧ ((nd (receive_dao wC4 1 "x" 2) 2).inbox).count (Msg.daoAck 1 "x" 0)
      = ((nd wC4 2).inbox).count (Msg.daoAck 1 "x" 0) + 1 := by
  have h := C4_dao_install_forward_ack wC4 1 "x" 2 (by decide) (by decide)
  exact ⟨h.1, h.2.1 0 (by decide) (by decide), h.2.2 (by decide)⟩

/-- C10: a DAO (p, c) whose prefix p is installed but mapped to a different
child c' is not a duplicate: at capacity it is rejected as OVERLOADED even
though installing it would not grow the table, and below capacity the mapping
is silently overwritten to c (table size unchanged) and the DAO is forwarded
and acknowledged like a fresh install. -/
theorem C10_dao_overwrite (w : World) (r : Nat) (p : String) (c c' : Nat)
    (hget : dictGet (nd w r).downward_routes p = some c')
    (hne : c' ≠ c) :
    ((nd w r).max_downward_routes ≤ (nd w r).downward_routes.length →
       receive_dao w r p c = w)
  ∧ ((nd w r).downward_routes.length < (nd w r).max_downward_routes →
       dictGet (nd (receive_dao w r p c) r).downward_routes p = some c
       ∧ (nd (receive_dao w r p c) r).downward_routes.length
           = (nd w r).downward_routes.length
       ∧ (∀ q, (nd w r).parent = some q → q < w.nodes.length →
           ((nd (receive_dao w r p c) q).inbox).count (Msg.dao c p)
             = ((nd w q).inbox).count (Msg.dao c p) + 1)
       ∧ (c < w.nodes.length →
           ((nd (receive_dao w r p c) c).inbox).count (Msg.daoAck r p 0)
             = ((nd w c).inbox).count (Msg.daoAck r p 0) + 1)) := by
  have h1 : ¬ dictGet (nd w r).downward_routes p = some c := by
    rw [hget]
    intro hcc
    exact hne (Option.some.inj hcc)
  constructor
  · intro h2
    exact receive_dao_overloaded w r p c h1 h2
  · intro h2
    refine ⟨?_, ?_, (receive_dao_install_counts w r p c h1 h2).1,
      (receive_dao_install_counts w r p c h1 h2).2⟩
    · rw [(receive_dao_install_routes w r p c h1 h2).1]
      exact dictGet_dictSet_self _ p c
    · rw [(receive_dao_install_routes w r p c h1 h2).1, length_dictSet]
      rw [hget]
      simp

/-- Concrete worlds for the C10 witness: table "a" → 1 at capacity 1 and the
same table with capacity 2. -/
def wC10f : World :=
  { nodes := [{ initNode 0 (0, 0) true with downward_routes := [("a", 1)], max_downward_routes := 1 }],
    rangeSq := 0, monitor := mon0 }

def wC10s : World :=
  { nodes := [{ initNode 0 (0, 0) true with downward_routes := [("a", 1)], max_downward_routes := 2 }],
    rangeSq := 0, monitor := mon0 }

theorem C10_witness :
    receive_dao wC10f 0 "a" 2 = wC10f
  ∧ dictGet (nd (receive_dao wC10s 0 "a" 2) 0).downward_routes "a" = some 2
  ∧ (nd (receive_dao wC10s 0 "a" 2) 0).downward_routes.length
      = (nd wC10s 0).downward_routes.length := by
  have hf := C10_dao_overwrite wC10f 0 "a" 2 1 (by decide) (by decide)
  have hs := C10_dao_overwrite wC10s 0 "a" 2 1 (by decide) (by decide)
  exact ⟨hf.1 (by decide), (hs.2 (by decide)).1, (hs.2 (by decide)).2.1⟩

/-- C2: every downward-route table stays within max_downward_routes at every
reachable state of a run; a DAO announcing a new prefix at exact capacity is
rejected silently with no state change whatsoever, while the same DAO issued
with one free slot installs the route. -/
theorem C2_route_capacity :
    (∀ ps rSq w, Reachable (mkWorld ps rSq) w →
        ∀ i, (nd w i).downward_routes.length ≤ (nd w i).max_downward_routes)
  ∧ (∀ w r p c, dictGet (nd w r).downward_routes p = none →
       (nd w r).downward_routes.length = (nd w r).max_downward_routes →
       receive_dao w r p c = w)
  ∧ (∀ w r p c, dictGet (nd w r).downward_routes p = none →
       (nd w r).downward_routes.length + 1 = (nd w r).max_downward_routes →
       dictGet (nd (receive_dao w r p c) r).downward_routes p = some c
       ∧ (nd (receive_dao w r p c) r).downward_routes.length
           = (nd w r).downward_routes.length + 1) := by
  refine ⟨?_, ?_, ?_⟩
  · intro ps rSq w hreach
    exact invariant_reachable (fun w' e _ h => routesBound_applyEv w' e h)
      (routesBound_mkWorld ps rSq) hreach
  · intro w r p c hnone hfull
    have h1 : ¬ dictGet (nd w r).downward_routes p = some c := by
      rw [hnone]
      exact Option.noConfusion
    exact receive_dao_overloaded w r p c h1 hfull.ge
  · intro w r p c hnone hfree
    have h1 : ¬ dictGet (nd w r).downward_routes p = some c := by
      rw [hnone]
      exact Option.noConfusion
    have h2 : (nd w r).downward_routes.length < (nd w r).max_downward_routes := by
      omega
    constructor
    · rw [(receive_dao_install_routes w r p c h1 h2).1]
      exact dictGet_dictSet_self _ p c
    · rw [(receive_dao_install_routes w r p c h1 h2).1, length_dictSet, if_pos hnone]

/-- Concrete worlds for the C2 witness: capacity reached and one slot free. -/
def wC2f : World :=
  { nodes := [{ initNode 0 (0, 0) true with downward_routes := [("a", 1)], max_downward_routes := 1 }],
    rangeSq := 0, monitor := mon0 }

def wC2s : World :=
  { nodes := [{ initNode 0 (0, 0) true with downward_routes := [("a", 1)], max_downward_routes := 2 }],
    rangeSq := 0, monitor := mon0 }

theorem C2_witness :
    (nd (mkWorld [(0, 0)] 0) 0).downward_routes.length
      ≤ (nd (mkWorld [(0, 0)] 0) 0).max_downward_routes
  ∧ receive_dao wC2f 0 "b" 2 = wC2f
  ∧ dictGet (nd (receive_dao wC2s 0 "b" 2) 0).downward_routes "b" = some 2 :=
  ⟨C2_route_capacity.1 [(0, 0)] 0 _ Relation.ReflTransGen.refl 0,
   C2_route_capacity.2.1 wC2f 0 "b" 2 (by decide) (by decide),
   (C2_route_capacity.2.2 wC2s 0 "b" 2 (by decide) (by decide)).1⟩

theorem receive_dio_root (w : World) (r s : Nat) (h : (nd w r).isRoot = true) :
    receive_dio w r s = w := by
  simp only [receive_dio]
  rw [if_pos h]

theorem receive_dio_orphan (w : World) (r s : Nat)
    (h : (nd w r).isRoot = false) (hp : (nd w r).parent = none) :
    receive_dio w r s = adoptParent w r s := by
  simp only [receive_dio]
  rw [if_neg (by rw [h]; exact Bool.false_ne_true), hp]

theorem receive_dio_switch (w : World) (r s p : Nat)
    (h : (nd w r).isRoot = false) (hp : (nd w r).parent = some p)
    (hc : distSq (nd w r).position (nd w s).position
            < distSq (nd w r).position (nd w p).position
          ∧ (nd w s).parent ≠ some r) :
    receive_dio w r s = adoptParent w r s := by
  simp only [receive_dio]
  rw [if_neg (by rw [h]; exact Bool.false_ne_true), hp]
  show (if distSq (nd w r).position (nd w s).position
            < distSq (nd w r).position (nd w p).position
          ∧ (nd w s).parent ≠ some r
        then adoptParent w r s else w) = adoptParent w r s
  rw [if_pos hc]

theorem receive_dio_keep (w : World) (r s p : Nat)
    (h : (nd w r).isRoot = false) (hp : (nd w r).parent = some p)
    (hc : ¬(distSq (nd w r).position (nd w s).position
              < distSq (nd w r).position (nd w p).position
            ∧ (nd w s).parent ≠ some r)) :
    receive_dio w r s = w := by
  simp only [receive_dio]
  rw [if_neg (by rw [h]; exact Bool.false_ne_true), hp]
  show (if distSq (nd w r).position (nd w s).position
            < distSq (nd w r).position (nd w p).position
          ∧ (nd w s).parent ≠ some r
        then adoptParent w r s else w) = w
  rw [if_neg hc]

/-- Parent, prefix and the DAO issued by adoptParent. -/
theorem adoptParent_state (w : World) (r s : Nat) (hr : r < w.nodes.length) (hrs : s ≠ r) :
    (nd (adoptParent w r s) r).parent = some s
  ∧ (nd (adoptParent w r s) r).pfx = derive (nd w s).pfx (nd w r).nodeId
  ∧ (s < w.nodes.length →
      (nd (adoptParent w r s) s).inbox
        = (nd w s).inbox ++ [Msg.dao r (derive (nd w s).pfx (nd w r).nodeId)]) := by
  have hio : InboxOnly
      (modifyNode w r (fun m =>
        { m with parent := some s, pfx := derive (nd w s).pfx (nd w r).nodeId }))
      (adoptParent w r s) :=
    inboxOnly_push_ctrl _ s _
  refine ⟨?_, ?_, ?_⟩
  · rw [hio.par r, nd_modifyNode, if_pos ⟨rfl, hr⟩]
  · rw [hio.pfx r, nd_modifyNode, if_pos ⟨rfl, hr⟩]
  · intro hs
    show (nd (pushMsg (onCtrlTx (modifyNode w r _)) s _) s).inbox = _
    rw [inbox_pushMsg]
    simp only [nd_onCtrlTx, nodes_onCtrlTx, length_modifyNode, true_and]
    rw [if_pos hs, nd_modifyNode, if_neg (by intro hc; exact hrs hc.1.symm)]

/-- C5: on DIO receipt a root node changes nothing; a non-root node without a
parent adopts the sender unconditionally, re-derives its prefix from the
sender's prefix and issues a DAO to it; a node with a parent switches exactly
when the sender is strictly closer (squared distances compare like the
source's Euclidean ones) and the sender's parent is not this node; an exactly
equidistant sender never causes a switch. -/
theorem C5_parent_selection (w : World) (r s : Nat) :
    ((nd w r).isRoot = true → receive_dio w r s = w)
  ∧ ((nd w r).isRoot = false → (nd w r).parent = none →
       r < w.nodes.length → s ≠ r →
       (nd (receive_dio w r s) r).parent = some s
       ∧ (nd (receive_dio w r s) r).pfx = derive (nd w s).pfx (nd w r).nodeId
       ∧ (s < w.nodes.length →
           (nd (receive_dio w r s) s).inbox
             = (nd w s).inbox ++ [Msg.dao r (derive (nd w s).pfx (nd w r).nodeId)]))
  ∧ (∀ p, (nd w r).isRoot = false → (nd w r).parent = some p →
       ((distSq (nd w r).position (nd w s).position
            < distSq (nd w r).position (nd w p).position
          ∧ (nd w s).parent ≠ some r) →
          r < w.nodes.length → s ≠ r →
          (nd (receive_dio w r s) r).parent = some s
          ∧ (nd (receive_dio w r s) r).pfx = derive (nd w s).pfx (nd w r).nodeId)
       ∧ (¬(distSq (nd w r).position (nd w s).position
              < distSq (nd w r).position (nd w p).position
            ∧ (nd w s).parent ≠ some r) → receive_dio w r s = w))
  ∧ (∀ p, (nd w r).parent = some p →
       distSq (nd w r).position (nd w s).position
         = distSq (nd w r).position (nd w p).position →
       receive_dio w r s = w) := by
  refine ⟨receive_dio_root w r s, ?_, ?_, ?_⟩
  · intro h hp hr hrs
    rw [receive_dio_orphan w r s h hp]
    exact adoptParent_state w r s hr hrs
  · intro p h hp
    constructor
    · intro hc hr hrs
      rw [receive_dio_switch w r s p h hp hc]
      exact ⟨(adoptParent_state w r s hr hrs).1, (adoptParent_state w r s hr hrs).2.1⟩
    · intro hc
      exact receive_dio_keep w r s p h hp hc
  · intro p hp heq
    by_cases h : (nd w r).isRoot = true
    · exact receive_dio_root w r s h
    · have h' : (nd w r).isRoot = false := by
        cases hb : (nd w r).isRoot
        · rfl
        · exact absurd hb h
      refine receive_dio_keep w r s p h' hp ?_
      intro hc
      rw [heq] at hc
      exact lt_irrefl _ hc.1

/-- Concrete world for the C5 witness: root 0, node 1 parented to the root at
squared distance 100, node 2 at squared distance 4 of node 1. -/
def wC5 : World :=
  { nodes := [initNode 0 (0, 0) true,
              { initNode 1 (10, 0) false with parent := some 0 },
              initNode 2 (8, 0) false],
    rangeSq := 10000, monitor := mon0 }

/-- Concrete world for the C5 witness tie case: the sender (node 2) is exactly
equidistant to node 1's current parent. -/
def wC5e : World :=
  { nodes := [initNode 0 (0, 0) true,
              { initNode 1 (10, 0) false with parent := some 0 },
              initNode 2 (20, 0) false],
    rangeSq := 10000, monitor := mon0 }

theorem C5_witness :
    receive_dio wC5 0 2 = wC5
  ∧ (nd (receive_dio wC5 2 0) 2).parent = some 0
  ∧ (nd (receive_dio wC5 2 0) 2).pfx = derive (nd wC5 0).pfx (nd wC5 2).nodeId
  ∧ (nd (receive_dio wC5 2 0) 0).inbox
      = (nd wC5 0).inbox ++ [Msg.dao 2 (derive (nd wC5 0).pfx (nd wC5 2).nodeId)]
  ∧ (nd (receive_dio wC5 1 2) 1).parent = some 2
  ∧ receive_dio wC5e 1 2 = wC5e := by
  have h0 := (C5_parent_selection wC5 0 2).1 (by decide)
  have h2 := (C5_parent_selection wC5 2 0).2.1 (by decide) (by decide) (by decide) (by decide)
  have h1 := ((C5_parent_selection wC5 1 2).2.2.1 0 (by decide) (by decide)).1
    (by decide) (by decide) (by decide)
  have he := (C5_parent_selection wC5e 1 2).2.2.2 0 (by decide) (by decide)
  exact ⟨h0, h2.1, h2.2.1, h2.2.2 (by decide), h1.1, he⟩

theorem handle_packet_deliver (w : World) (i src : Nat) (dst : String)
    (h : dst = (nd w i).pfx) :
    handle_packet w i src dst = onDelivered w := by
  simp only [handle_packet]
  rw [if_pos h]

theorem handle_packet_down (w : World) (i src : Nat) (dst : String) (c : Nat)
    (h : ¬ dst = (nd w i).pfx) (hc : dictGet (nd w i).downward_routes dst = some c) :
    handle_packet w i src dst = send_packet w src dst c := by
  simp only [handle_packet]
  rw [if_neg h, hc]

theorem handle_packet_up (w : World) (i src : Nat) (dst : String) (q : Nat)
    (h : ¬ dst = (nd w i).pfx) (hc : dictGet (nd w i).downward_routes dst = none)
    (hq : (nd w i).parent = some q) :
    handle_packet w i src dst = send_packet w src dst q := by
  simp only [handle_packet]
  rw [if_neg h, hc, hq]

theorem handle_packet_drop (w : World) (i src : Nat) (dst : String)
    (h : ¬ dst = (nd w i).pfx) (hc : dictGet (nd w i).downward_routes dst = none)
    (hq : (nd w i).parent = none) :
    handle_packet w i src dst = w := by
  simp only [handle_packet]
  rw [if_neg h, hc, hq]

theorem send_packet_inbox (w : World) (src : Nat) (dst : String) (nh : Nat)
    (hn : nh < w.nodes.length) :
    (nd (send_packet w src dst nh) nh).inbox = (nd w nh).inbox ++ [Msg.data src dst] := by
  rw [send_packet, inbox_pushMsg]
  simp only [nd_onTx, nodes_onTx, true_and]
  rw [if_pos hn]

@[simp] theorem monitor_send_packet_delivered (w : World) (src : Nat) (dst : String) (nh : Nat) :
    (send_packet w src dst nh).monitor.total_data_delivered
      = w.monitor.total_data_delivered := rfl

/-- C7: a data packet with destination D at a node is handled by exactly the
first applicable rule of: deliver when D is the own prefix (monitor delivery
count increments, no node state changes); forward to the mapped child when D
is an installed downward route; forward to the parent when one exists; else
drop with the world unchanged.  The delivery counter moves only in the first
case. -/
theorem C7_forwarding_priority (w : World) (i src : Nat) (dst : String) :
    (dst = (nd w i).pfx →
       (handle_packet w i src dst).monitor.total_data_delivered
           = w.monitor.total_data_delivered + 1
       ∧ (handle_packet w i src dst).nodes = w.nodes)
  ∧ (¬ dst = (nd w i).pfx → ∀ c, dictGet (nd w i).downward_routes dst = some c →
       (c < w.nodes.length →
         (nd (handle_packet w i src dst) c).inbox = (nd w c).inbox ++ [Msg.data src dst])
       ∧ (handle_packet w i src dst).monitor.total_data_delivered
           = w.monitor.total_data_delivered)
  ∧ (¬ dst = (nd w i).pfx → dictGet (nd w i).downward_routes dst = none →
       ∀ q, (nd w i).parent = some q →
       (q < w.nodes.length →
         (nd (handle_packet w i src dst) q).inbox = (nd w q).inbox ++ [Msg.data src dst])
       ∧ (handle_packet w i src dst).monitor.total_data_delivered
           = w.monitor.total_data_delivered)
  ∧ (¬ dst = (nd w i).pfx → dictGet (nd w i).downward_routes dst = none →
       (nd w i).parent = none → handle_packet w i src dst = w) := by
  refine ⟨?_, ?_, ?_, handle_packet_drop w i src dst⟩
  · intro h
    rw [handle_packet_deliver w i src dst h]
    exact ⟨rfl, rfl⟩
  · intro h c hc
    rw [handle_packet_down w i src dst c h hc]
    exact ⟨fun hcl => send_packet_inbox w src dst c hcl, rfl⟩
  · intro h hc q hq
    rw [handle_packet_up w i src dst q h hc hq]
    exact ⟨fun hql => send_packet_inbox w src dst q hql, rfl⟩

/-- Concrete world for the C7 witness: node 1 owns a downward route "d" → 2
and a parent 0; node 2 is isolated. -/
def wC7 : World :=
  { nodes := [initNode 0 (0, 0) true,
              { initNode 1 (1, 0) false with parent := some 0, downward_routes := [("d", 2)] },
              initNode 2 (2, 0) false],
    rangeSq := 100, monitor := mon0 }

theorem C7_witness :
    (handle_packet wC7 1 9 "2001:db8::01").monitor.total_data_delivered
        = wC7.monitor.total_data_delivered + 1
  ∧ (nd (handle_packet wC7 1 9 "d") 2).inbox = (nd wC7 2).inbox ++ [Msg.data 9 "d"]
  ∧ (nd (handle_packet wC7 1 9 "u") 0).inbox = (nd wC7 0).inbox ++ [Msg.data 9 "u"]
  ∧ handle_packet wC7 2 9 "z" = wC7 := by
  have hdel := (C7_forwarding_priority wC7 1 9 "2001:db8::01").1 (by decide)
  have hdown := (C7_forwarding_priority wC7 1 9 "d").2.1 (by decide) 2 (by decide)
  have hup := (C7_forwarding_priority wC7 1 9 "u").2.2.1 (by decide) (by decide) 0 (by decide)
  have hdrop := (C7_forwarding_priority wC7 2 9 "z").2.2.2 (by decide) (by decide) (by decide)
  exact ⟨hdel.1, hdown.1 (by decide), hup.1 (by decide), hdrop⟩

/-- Inbox effect of the Node.send_dis broadcast loop over a duplicate-free
recipient list: every other in-range live node receives exactly one DIS. -/
theorem sendDisLoop_inbox (i : Nat) (l : List Nat) (w : World) (hnd : l.Nodup) (j : Nat) :
    (nd (sendDisLoop i w l) j).inbox =
      if j ∈ l ∧ j ≠ i ∧ distSq (nd w i).position (nd w j).position ≤ w.rangeSq
          ∧ j < w.nodes.length
      then (nd w j).inbox ++ [Msg.dis i]
      else (nd w j).inbox := by
  induction l generalizing w with
  | nil => simp [sendDisLoop]
  | cons k rest ih =>
      obtain ⟨hk, hrest⟩ := List.nodup_cons.mp hnd
      rw [sendDisLoop]
      split
      · rename_i hg
        rw [ih _ hrest]
        have hio := inboxOnly_push_ctrl w k (Msg.dis i)
        rw [hio.pos i, hio.pos j, hio.rng, hio.len]
        by_cases hjk : j = k
        · subst hjk
          rw [if_neg (fun hc => hk hc.1)]
          rw [inbox_pushMsg]
          simp only [nd_onCtrlTx, nodes_onCtrlTx, true_and]
          by_cases hlen : j < w.nodes.length
          · rw [if_pos hlen, if_pos ⟨List.mem_cons_self _ _, hg.1, hg.2, hlen⟩]
          · rw [if_neg hlen, if_neg (fun hc => hlen hc.2.2.2)]
        · have hpre : (nd (pushMsg (onCtrlTx w) k (Msg.dis i)) j).inbox = (nd w j).inbox := by
            rw [inbox_pushMsg]
            simp only [nd_onCtrlTx, nodes_onCtrlTx]
            rw [if_neg (fun hc => hjk hc.1.symm)]
          rw [hpre]
          by_cases hcond : j ∈ rest ∧ j ≠ i
              ∧ distSq (nd w i).position (nd w j).position ≤ w.rangeSq
              ∧ j < w.nodes.length
          · rw [if_pos hcond, if_pos ⟨List.mem_cons_of_mem _ hcond.1, hcond.2⟩]
          · rw [if_neg hcond,
              if_neg (fun hc => hcond ⟨(List.mem_cons.mp hc.1).resolve_left hjk, hc.2⟩)]
      · rename_i hg
        rw [ih w hrest]
        by_cases hjk : j = k
        · subst hjk
          rw [if_neg (fun hc => hk hc.1), if_neg (fun hc => hg ⟨hc.2.1, hc.2.2.1⟩)]
        · by_cases hcond : j ∈ rest ∧ j ≠ i
              ∧ distSq (nd w i).position (nd w j).position ≤ w.rangeSq
              ∧ j < w.nodes.length
          · rw [if_pos hcond, if_pos ⟨List.mem_cons_of_mem _ hcond.1, hcond.2⟩]
          · rw [if_neg hcond,
              if_neg (fun hc => hcond ⟨(List.mem_cons.mp hc.1).resolve_left hjk, hc.2⟩)]

theorem send_dis_inbox (w : World) (i j : Nat) :
    (nd (send_dis w i) j).inbox =
      if j ≠ i ∧ distSq (nd w i).position (nd w j).position ≤ w.rangeSq
          ∧ j < w.nodes.length
      then (nd w j).inbox ++ [Msg.dis i]
      else (nd w j).inbox := by
  rw [send_dis, sendDisLoop_inbox i _ w (List.nodup_range _) j]
  by_cases hc : j ≠ i ∧ distSq (nd w i).position (nd w j).position ≤ w.rangeSq
      ∧ j < w.nodes.length
  · rw [if_pos ⟨List.mem_range.mpr hc.2.2, hc⟩, if_pos hc]
  · rw [if_neg (fun hx => hc hx.2), if_neg hc]

theorem inbox_modify_trickle (w : World) (i : Nat) (tNew : Rat) (j : Nat) :
    (nd (modifyNode w i (fun n => { n with I := min (n.I * 2) 8, t := tNew })) j).inbox
      = (nd w j).inbox := by
  rw [nd_modifyNode]
  split <;> rename_i h <;> first | rw [h.1] | rfl

/-- C8: on a trickle fire the node re-broadcasts DIS to all other in-range
nodes exactly when it has zero neighbors; afterwards the interval bound is
min(2·I, Imax) with Imin = 1 and Imax = 8, and the next offset is the fresh
draw, so Imin ≤ I ≤ Imax and Imin ≤ t ≤ I both hold after every fire. -/
theorem C8_trickle_backoff (w : World) (i : Nat) (tNew : Rat)
    (hi : i < w.nodes.length)
    (hI : 1 ≤ (nd w i).I)
    (ht1 : 1 ≤ tNew) (ht2 : tNew ≤ min ((nd w i).I * 2) 8) :
    (nd (trickle_fire w i tNew) i).I = min ((nd w i).I * 2) 8
  ∧ (nd (trickle_fire w i tNew) i).t = tNew
  ∧ 1 ≤ (nd (trickle_fire w i tNew) i).I
  ∧ (nd (trickle_fire w i tNew) i).I ≤ 8
  ∧ 1 ≤ (nd (trickle_fire w i tNew) i).t
  ∧ (nd (trickle_fire w i tNew) i).t ≤ (nd (trickle_fire w i tNew) i).I
  ∧ ((nd w i).neighbors = [] →
       ∀ j, (nd (trickle_fire w i tNew) j).inbox =
         if j ≠ i ∧ distSq (nd w i).position (nd w j).position ≤ w.rangeSq
             ∧ j < w.nodes.length
         then (nd w j).inbox ++ [Msg.dis i] else (nd w j).inbox)
  ∧ ((nd w i).neighbors ≠ [] → ∀ j, (nd (trickle_fire w i tNew) j).inbox = (nd w j).inbox) := by
  have hIeq : (nd (trickle_fire w i tNew) i).I = min ((nd w i).I * 2) 8 := by
    rw [trickle_fire]
    split
    · rename_i hn
      have hio := inboxOnly_send_dis w i
      rw [nd_modifyNode, if_pos ⟨rfl, by rw [hio.len]; exact hi⟩, hio.itv i]
    · rw [nd_modifyNode, if_pos ⟨rfl, hi⟩]
  have hteq : (nd (trickle_fire w i tNew) i).t = tNew := by
    rw [trickle_fire]
    split
    · rename_i hn
      have hio := inboxOnly_send_dis w i
      rw [nd_modifyNode, if_pos ⟨rfl, by rw [hio.len]; exact hi⟩]
    · rw [nd_modifyNode, if_pos ⟨rfl, hi⟩]
  refine ⟨hIeq, hteq, ?_, ?_, ?_, ?_, ?_, ?_⟩
  · rw [hIeq]
    exact le_min (by linarith) (by norm_num)
  · rw [hIeq]
    exact min_le_right _ _
  · rw [hteq]
    exact ht1
  · rw [hteq, hIeq]
    exact ht2
  · intro hn j
    rw [trickle_fire, if_pos hn, inbox_modify_trickle, send_dis_inbox]
  · intro hn j
    rw [trickle_fire, if_neg hn, inbox_modify_trickle]

/-- Concrete world for the C8 witness: two in-range nodes, freshly created, so
node 0 has no neighbors and I = Imin = 1. -/
def wC8 : World := mkWorld [(0, 0), (1, 0)] 100

theorem C8_witness :
    (nd (trickle_fire wC8 0 2) 0).I = min ((nd wC8 0).I * 2) 8
  ∧ (nd (trickle_fire wC8 0 2) 0).t = 2
  ∧ 1 ≤ (nd (trickle_fire wC8 0 2) 0).I
  ∧ (nd (trickle_fire wC8 0 2) 0).I ≤ 8
  ∧ 1 ≤ (nd (trickle_fire wC8 0 2) 0).t
  ∧ (nd (trickle_fire wC8 0 2) 0).t ≤ (nd (trickle_fire wC8 0 2) 0).I
  ∧ (nd (trickle_fire wC8 0 2) 1).inbox =
      if (1 : Nat) ≠ 0 ∧ distSq (nd wC8 0).position (nd wC8 1).position ≤ wC8.rangeSq
          ∧ 1 < wC8.nodes.length
      then (nd wC8 1).inbox ++ [Msg.dis 0] else (nd wC8 1).inbox := by
  have hIval : (nd wC8 0).I = 1 := by decide
  have h := C8_trickle_backoff wC8 0 2 (by decide) (by rw [hIval]) (by norm_num)
    (by rw [hIval]; norm_num [min_def])
  exact ⟨h.1, h.2.1, h.2.2.1, h.2.2.2.1, h.2.2.2.2.1, h.2.2.2.2.2.1,
    h.2.2.2.2.2.2.1 (by decide) 1⟩

/-- C9: every eligible victim of an attack cycle is a node other than the
attacker whose downward-route table is non-empty; when no such node exists
the cycle injects nothing; otherwise the chosen victim is one of them and the
forged DAO is injected by calling the victim's receive_dao directly with the
forged prefix and the attacker as child. -/
theorem C9_attack_eligibility (w : World) (a pick fakeNum : Nat) :
    (∀ v, v ∈ possible_victims w a → v ≠ a ∧ (nd w v).downward_routes ≠ [])
  ∧ (possible_victims w a = [] → attack_cycle w a pick fakeNum = w)
  ∧ (possible_victims w a ≠ [] →
       (possible_victims w a).getD (pick % (possible_victims w a).length) 0
           ∈ possible_victims w a
       ∧ attack_cycle w a pick fakeNum
           = receive_dao w
               ((possible_victims w a).getD (pick % (possible_victims w a).length) 0)
               (fakePfx fakeNum) a) := by
  refine ⟨?_, ?_, ?_⟩
  · intro v hv
    rw [possible_victims, List.mem_filter] at hv
    obtain ⟨-, hp⟩ := hv
    rw [Bool.and_eq_true, bne_iff_ne, decide_eq_true_eq] at hp
    exact ⟨hp.1, fun hnil => by rw [hnil] at hp; exact absurd hp.2 (by simp)⟩
  · intro hnil
    rw [attack_cycle, if_pos (List.isEmpty_iff.mpr hnil)]
  · intro hne
    constructor
    · have hlen : pick % (possible_victims w a).length < (possible_victims w a).length :=
        Nat.mod_lt _ (List.length_pos.mpr hne)
      rw [List.getD_eq_getElem _ _ hlen]
      exact List.getElem_mem hlen
    · rw [attack_cycle, if_neg (fun hc => hne (List.isEmpty_iff.mp hc))]

/-- Concrete worlds for the C9 witness: one without any downward route
anywhere and one where only node 0 relays. -/
def wC9e : World := mkWorld [(0, 0), (1, 0)] 100

def wC9v : World :=
  { nodes := [{ initNode 0 (0, 0) true with downward_routes := [("a", 1)] },
              initNode 1 (1, 0) false],
    rangeSq := 100, monitor := mon0 }

theorem C9_witness :
    attack_cycle wC9e 1 0 1000 = wC9e
  ∧ (0 : Nat) ∈ possible_victims wC9v 1
  ∧ (0 ≠ 1 ∧ (nd wC9v 0).downward_routes ≠ [])
  ∧ attack_cycle wC9v 1 0 1000 = receive_dao wC9v 0 (fakePfx 1000) 1 := by
  have he := (C9_attack_eligibility wC9e 1 0 1000).2.1 (by decide)
  have hmem : (0 : Nat) ∈ possible_victims wC9v 1 := by decide
  have hv := (C9_attack_eligibility wC9v 1 0 1000).2.2 (by decide)
  have helig := (C9_attack_eligibility wC9v 1 0 1000).1 0 hmem
  refine ⟨he, hmem, helig, ?_⟩
  have hpv : possible_victims wC9v 1 = [0] := by decide
  have := hv.2
  rw [hpv] at this
  simpa using this

theorem adoptParent_pfx_ne (w : World) (r s j : Nat) (hj : ¬ r = j) :
    (nd (adoptParent w r s) j).pfx = (nd w j).pfx := by
  have hio : InboxOnly
      (modifyNode w r (fun m =>
        { m with parent := some s, pfx := derive (nd w s).pfx (nd w r).nodeId }))
      (adoptParent w r s) :=
    inboxOnly_push_ctrl _ s _
  rw [hio.pfx j, nd_modifyNode, if_neg (fun hc => hj hc.1)]

/-- The root-prefix invariant: every root node carries the fixed root prefix. -/
def RootPfxInv (w : World) : Prop :=
  ∀ i, (nd w i).isRoot = true → (nd w i).pfx = rootPfx

theorem rootPfxInv_mono {w w' : World}
    (hroot : ∀ j, (nd w' j).isRoot = (nd w j).isRoot)
    (hpfx : ∀ j, (nd w' j).pfx = (nd w j).pfx)
    (h : RootPfxInv w) : RootPfxInv w' := by
  intro i hi
  rw [hpfx i]
  exact h i (by rw [← hroot i]; exact hi)

theorem rootPfxInv_receive_dio (w : World) (r s : Nat) (h : RootPfxInv w) :
    RootPfxInv (receive_dio w r s) := by
  rcases receive_dio_cases w r s with heq | ⟨hroot, heq⟩
  · rw [heq]; exact h
  · rw [heq]
    intro j hj
    have hpo := parentOnly_adoptParent w r s
    by_cases hrj : r = j
    · subst hrj
      rw [hpo.root r] at hj
      rw [hroot] at hj
      exact absurd hj Bool.false_ne_true
    · rw [adoptParent_pfx_ne w r s j hrj]
      exact h j (by rw [← hpo.root j]; exact hj)

theorem rootPfxInv_applyEv (w : World) (e : Ev) (h : RootPfxInv w) :
    RootPfxInv (applyEv w e) := by
  cases e with
  | inbox i =>
      simp only [applyEv, stepInbox]
      cases hib : (nd w i).inbox with
      | nil => exact h
      | cons m rest =>
          have h1 : RootPfxInv (modifyNode w i (fun n => { n with inbox := n.inbox.drop 1 })) :=
            rootPfxInv_mono (inboxOnly_modify_inbox w i _).root
              (inboxOnly_modify_inbox w i _).pfx h
          cases m with
          | daoAck f cp st => exact h1
          | dis s =>
              exact rootPfxInv_mono (nbrsOnly_receive_dis _ i s).root
                (nbrsOnly_receive_dis _ i s).pfx h1
          | dio s => exact rootPfxInv_receive_dio _ i s h1
          | dao cn cp =>
              exact rootPfxInv_mono (routesOnly_receive_dao _ i cp cn).root
                (routesOnly_receive_dao _ i cp cn).pfx h1
          | data src dst =>
              have hio : InboxOnly
                  (modifyNode w i (fun n => { n with inbox := List.drop 1 n.inbox }))
                  (handle_packet
                    (onRx (modifyNode w i (fun n => { n with inbox := List.drop 1 n.inbox })))
                    i src dst) :=
                inboxOnly_trans (inboxOnly_withMon _ _) (inboxOnly_handle_packet _ i src dst)
              exact rootPfxInv_mono hio.root hio.pfx h1
  | discover i =>
      exact rootPfxInv_mono (inboxOnly_discover w i).root (inboxOnly_discover w i).pfx h
  | advertise i =>
      exact rootPfxInv_mono (inboxOnly_send_dio w i).root (inboxOnly_send_dio w i).pfx h
  | trickle i t =>
      exact rootPfxInv_mono (timerOnly_trickle w i t).root (timerOnly_trickle w i t).pfx h
  | attack a pick fakeNum =>
      simp only [applyEv, attack_cycle]
      split
      · exact h
      · exact rootPfxInv_mono (routesOnly_receive_dao _ _ _ _).root
          (routesOnly_receive_dao _ _ _ _).pfx h
  | traffic src dst =>
      exact rootPfxInv_mono (inboxOnly_gen_traffic w src dst).root
        (inboxOnly_gen_traffic w src dst).pfx h

theorem rootPfxInv_mkWorld (ps : List (Int × Int)) (rSq : Int) :
    RootPfxInv (mkWorld ps rSq) := by
  intro i hi
  by_cases h : i < ps.length
  · rw [nd_mkWorld ps rSq i h] at hi ⊢
    simp only [initNode] at hi ⊢
    split
    · rfl
    · rename_i hne
      exact absurd hi hne
  · rw [nd_of_ge _ _ (by rw [length_mkWorld]; exact le_of_not_lt h)] at hi
    exact absurd hi (by simp [default])

/-- The global prefix invariant claimed for every point of a run: each
non-root node with a parent carries the derivation of the parent's current
prefix, and each root node the fixed root prefix. -/
def PrefixInv (w : World) : Prop :=
  (∀ i, i < w.nodes.length → (nd w i).isRoot = false →
     ∀ p, (nd w i).parent = some p →
       (nd w i).pfx = derive (nd w p).pfx (nd w i).nodeId)
  ∧ ∀ i, (nd w i).isRoot = true → (nd w i).pfx = rootPfx

/-- Initial positions of the C1 counterexample run: root at the origin out of
range of node 1, nodes 1 and 2 mutually in range. -/
def psC1 : List (Int × Int) := [(0, 0), (10, 0), (5, 0)]

/-- The C1 counterexample schedule: node 2 discovers its neighbors, node 1
answers the DIS, node 2 adopts the still-parentless node 1 on its DIO reply,
node 2 advertises, node 1 processes node 2's DAO and then adopts node 2 on
node 2's DIO — changing node 1's prefix and leaving node 2's prefix stale. -/
def traceC1 : List Ev :=
  [Ev.discover 2, Ev.inbox 1, Ev.inbox 2, Ev.advertise 2, Ev.inbox 1, Ev.inbox 1]

/-- C1 as stated is false: the prefix equality is not an invariant of the run;
after the schedule traceC1 node 2 still has parent node 1, but node 1's
prefix has changed since node 2 derived its own, so
prefix(2) ≠ derive(prefix(1), 2) in a reachable state. -/
theorem C1_counterexample :
    ¬ (∀ w, Reachable (mkWorld psC1 30) w → PrefixInv w) := by
  intro h
  have hreach : Reachable (mkWorld psC1 30) (runEvs (mkWorld psC1 30) traceC1) :=
    reachable_runEvs traceC1 (mkWorld psC1 30) (by decide)
  have hinv := (h _ hreach).1 2 (by decide) (by decide) 1 (by decide)
  exact absurd hinv (by decide)

/-- C1 amended: the root's prefix never changes from its fixed value in any
reachable state; and whenever a DIO makes a node adopt or switch parent, its
prefix at that moment becomes the derivation of the new parent's current
prefix with its own suffix.  (The equality can later be broken if the parent
re-derives its own prefix, which is what refutes the claim as stated.) -/
theorem C1_amended_prefix :
    (∀ ps rSq w, Reachable (mkWorld ps rSq) w →
       ∀ i, (nd w i).isRoot = true → (nd w i).pfx = rootPfx)
  ∧ (∀ w r s, s ≠ r →
       (nd (receive_dio w r s) r).parent ≠ (nd w r).parent →
       (nd (receive_dio w r s) r).parent = some s
       ∧ (nd (receive_dio w r s) r).pfx
           = derive (nd (receive_dio w r s) s).pfx (nd w r).nodeId) := by
  constructor
  · intro ps rSq w hreach
    exact invariant_reachable (fun w' e _ h => rootPfxInv_applyEv w' e h)
      (rootPfxInv_mkWorld ps rSq) hreach
  · intro w r s hsr hchanged
    rcases receive_dio_cases w r s with heq | ⟨hroot, heq⟩
    · rw [heq] at hchanged
      exact absurd rfl hchanged
    · by_cases hr : r < w.nodes.length
      · rw [heq]
        have hst := adoptParent_state w r s hr hsr
        refine ⟨hst.1, ?_⟩
        rw [hst.2.1, adoptParent_pfx_ne w r s s ?_]
        intro hrs
        exact hsr hrs.symm
      · exfalso
        apply hchanged
        have hlen := (parentOnly_receive_dio w r s).len
        rw [nd_of_ge _ r (by rw [hlen]; exact le_of_not_lt hr),
          nd_of_ge _ r (le_of_not_lt hr)]

/-- Concrete world for the C1 witness: a root and one plain node in range. -/
def wC1 : World := mkWorld [(0, 0), (1, 0)] 100

theorem C1_witness :
    (nd (mkWorld [(0, 0)] 0) 0).pfx = rootPfx
  ∧ (nd (receive_dio wC1 1 0) 1).parent = some 0
  ∧ (nd (receive_dio wC1 1 0) 1).pfx
      = derive (nd (receive_dio wC1 1 0) 0).pfx (nd wC1 1).nodeId := by
  have h1 := C1_amended_prefix.1 [(0, 0)] 0 _ Relation.ReflTransGen.refl 0 (by decide)
  have h2 := C1_amended_prefix.2 wC1 1 0 (by decide) (by decide)
  exact ⟨h1, h2.1, h2.2⟩

/-- DIS messages present in inboxes of `w'` were already present in `w`. -/
def DisLe (w w' : World) : Prop :=
  ∀ j x, Msg.dis x ∈ (nd w' j).inbox → Msg.dis x ∈ (nd w j).inbox

theorem disLe_refl (w : World) : DisLe w w := fun _ _ h => h

theorem disLe_trans {w1 w2 w3 : World} (a : DisLe w1 w2) (b : DisLe w2 w3) : DisLe w1 w3 :=
  fun j x h => a j x (b j x h)

theorem disLe_withMon (w : World) (f : Monitor → Monitor) : DisLe w (withMon w f) :=
  fun _ _ h => h

theorem disLe_push (w : World) (i : Nat) (m : Msg) (hm : ∀ x, ¬ m = Msg.dis x) :
    DisLe w (pushMsg w i m) := by
  intro j x hx
  rw [inbox_pushMsg] at hx
  revert hx
  split
  · intro hx
    rcases List.mem_append.mp hx with hold | hnew
    · exact hold
    · exact absurd (List.mem_singleton.mp hnew).symm (hm x)
  · exact id

theorem disLe_modify_sub (w : World) (i : Nat) (f : NodeState → NodeState)
    (hf : ∀ n, ∀ m, m ∈ (f n).inbox → m ∈ n.inbox) :
    DisLe w (modifyNode w i f) := by
  intro j x hx
  rw [nd_modifyNode] at hx
  revert hx
  split
  · rename_i h
    intro hx
    rw [← h.1]
    exact hf _ _ hx
  · exact id

theorem disLe_pop (w : World) (i : Nat) :
    DisLe w (modifyNode w i (fun n => { n with inbox := n.inbox.drop 1 })) :=
  disLe_modify_sub w i _ (fun n m hm => List.drop_subset 1 n.inbox hm)

theorem disLe_push_ctrl (w : World) (i : Nat) (m : Msg) (hm : ∀ x, ¬ m = Msg.dis x) :
    DisLe w (pushMsg (onCtrlTx w) i m) :=
  disLe_trans (disLe_withMon w _) (disLe_push _ i m hm)

theorem disLe_receive_dao (w : World) (r : Nat) (p : String) (c : Nat) :
    DisLe w (receive_dao w r p c) := by
  by_cases h1 : dictGet (nd w r).downward_routes p = some c
  · rw [receive_dao_dup w r p c h1]; exact disLe_refl w
  · by_cases h2 : (nd w r).max_downward_routes ≤ (nd w r).downward_routes.length
    · rw [receive_dao_overloaded w r p c h1 h2]; exact disLe_refl w
    · rw [receive_dao_eq_install w r p c h1 (not_le.mp h2)]
      have hd1 : DisLe w (modifyNode w r
          (fun m => { m with downward_routes := dictSet m.downward_routes p c })) :=
        disLe_modify_sub w r _ (fun n m hm => hm)
      cases hp : (nd w r).parent with
      | none =>
          simp only [hp]
          exact disLe_trans hd1 (disLe_push_ctrl _ c _ (fun x h => Msg.noConfusion h))
      | some q =>
          simp only [hp]
          exact disLe_trans hd1 (disLe_trans
            (disLe_push_ctrl _ q _ (fun x h => Msg.noConfusion h))
            (disLe_push_ctrl _ c _ (fun x h => Msg.noConfusion h)))

theorem disLe_adoptParent (w : World) (r s : Nat) : DisLe w (adoptParent w r s) :=
  disLe_trans
    (disLe_modify_sub w r (fun m =>
      { m with parent := some s, pfx := derive (nd w s).pfx (nd w r).nodeId })
      (fun n m hm => hm))
    (disLe_push_ctrl _ s _ (fun x h => Msg.noConfusion h))

theorem disLe_receive_dio (w : World) (r s : Nat) : DisLe w (receive_dio w r s) := by
  rcases receive_dio_cases w r s with heq | ⟨_, heq⟩ <;> rw [heq]
  · exact disLe_refl w
  · exact disLe_adoptParent w r s

theorem disLe_receive_dis (w : World) (r s : Nat) : DisLe w (receive_dis w r s) := by
  simp only [receive_dis]
  split
  · have hd1 : DisLe w
        (modifyNode w r (fun m => { m with neighbors := m.neighbors ++ [s] })) :=
      disLe_modify_sub w r _ (fun n m hm => hm)
    split
    · exact disLe_trans hd1 (disLe_push_ctrl _ s _ (fun x h => Msg.noConfusion h))
    · exact disLe_trans hd1 (disLe_trans
        (disLe_modify_sub _ s (fun m => { m with neighbors := m.neighbors ++ [r] })
          (fun n m hm => hm))
        (disLe_push_ctrl _ s _ (fun x h => Msg.noConfusion h)))
  · exact disLe_refl w

theorem disLe_send_packet (w : World) (src : Nat) (dst : String) (nh : Nat) :
    DisLe w (send_packet w src dst nh) :=
  disLe_trans (disLe_withMon w _) (disLe_push _ nh _ (fun x h => Msg.noConfusion h))

theorem disLe_handle_packet (w : World) (i src : Nat) (dst : String) :
    DisLe w (handle_packet w i src dst) := by
  rw [handle_packet]
  split
  · exact disLe_withMon w _
  · split
    · exact disLe_send_packet w src dst _
    · split
      · exact disLe_send_packet w src dst _
      · exact disLe_refl w

theorem disLe_gen_traffic (w : World) (src dst : Nat) : DisLe w (gen_traffic w src dst) := by
  rw [gen_traffic]
  split
  · exact disLe_refl w
  · exact disLe_trans (disLe_withMon w _) (disLe_send_packet _ src _ src)

theorem disLe_sendDioLoop (i : Nat) (l : List Nat) (w : World) :
    DisLe w (sendDioLoop i w l) := by
  induction l generalizing w with
  | nil => exact disLe_refl w
  | cons k rest ih =>
      rw [sendDioLoop]
      split
      · exact disLe_trans (disLe_push_ctrl w k _ (fun x h => Msg.noConfusion h)) (ih _)
      · exact ih w

theorem discoverLoop_dis (i : Nat) (l : List Nat) (w : World) (j x : Nat)
    (h : Msg.dis x ∈ (nd (discoverLoop i w l) j).inbox) :
    Msg.dis x ∈ (nd w j).inbox ∨ (x = i ∧ ¬ j = i) := by
  induction l generalizing w with
  | nil => exact Or.inl h
  | cons k rest ih =>
      rw [discoverLoop] at h
      revert h
      split
      · rename_i hg
        intro h
        rcases ih _ h with hm | hr
        · rw [inbox_pushMsg] at hm
          revert hm
          split
          · rename_i hc
            intro hm
            rcases List.mem_append.mp hm with hold | hnew
            · exact Or.inl hold
            · have hx := List.mem_singleton.mp hnew
              refine Or.inr ⟨Msg.dis.inj hx, ?_⟩
              rw [← hc.1]
              exact hg.1
          · exact fun hm => Or.inl hm
        · exact Or.inr hr
      · exact fun h => ih w h

theorem sendDisLoop_dis (i : Nat) (l : List Nat) (w : World) (j x : Nat)
    (h : Msg.dis x ∈ (nd (sendDisLoop i w l) j).inbox) :
    Msg.dis x ∈ (nd w j).inbox ∨ (x = i ∧ ¬ j = i) := by
  induction l generalizing w with
  | nil => exact Or.inl h
  | cons k rest ih =>
      rw [sendDisLoop] at h
      revert h
      split
      · rename_i hg
        intro h
        rcases ih _ h with hm | hr
        · rw [inbox_pushMsg] at hm
          revert hm
          split
          · rename_i hc
            intro hm
            rcases List.mem_append.mp hm with hold | hnew
            · exact Or.inl hold
            · have hx := List.mem_singleton.mp hnew
              refine Or.inr ⟨Msg.dis.inj hx, ?_⟩
              rw [← hc.1]
              exact hg.1
          · exact fun hm => Or.inl hm
        · exact Or.inr hr
      · exact fun h => ih w h

theorem receive_dis_noop (w : World) (r s : Nat)
    (h : ¬(s ∉ (nd w r).neighbors
           ∧ distSq (nd w r).position (nd w s).position ≤ w.rangeSq)) :
    receive_dis w r s = w := by
  simp only [receive_dis]
  rw [if_neg h]

/-- Effect of receive_dis on neighbor lists when the handshake fires and the
reverse edge is still missing: both directions are added in this one step. -/
theorem receive_dis_nbrs (w : World) (r s : Nat)
    (hr : r < w.nodes.length) (hs : s < w.nodes.length) (hsr : ¬ s = r)
    (hcond : s ∉ (nd w r).neighbors
             ∧ distSq (nd w r).position (nd w s).position ≤ w.rangeSq)
    (hrev : r ∉ (nd w s).neighbors) :
    (nd (receive_dis w r s) r).neighbors = (nd w r).neighbors ++ [s]
  ∧ (nd (receive_dis w r s) s).neighbors = (nd w s).neighbors ++ [r]
  ∧ ∀ j, ¬ j = r → ¬ j = s → (nd (receive_dis w r s) j).neighbors = (nd w j).neighbors := by
  simp only [receive_dis]
  rw [if_pos hcond]
  have hw1 : (nd (modifyNode w r (fun m => { m with neighbors := m.neighbors ++ [s] }))
      s).neighbors = (nd w s).neighbors := by
    rw [nd_modifyNode, if_neg (fun hc => hsr hc.1.symm)]
  rw [if_neg (by rw [hw1]; exact hrev)]
  have hio := inboxOnly_push_ctrl
    (modifyNode (modifyNode w r (fun m => { m with neighbors := m.neighbors ++ [s] }))
      s (fun m => { m with neighbors := m.neighbors ++ [r] })) s (Msg.dio r)
  refine ⟨?_, ?_, ?_⟩
  · rw [hio.nbrs r, nd_modifyNode, if_neg (fun hc => hsr hc.1), nd_modifyNode,
      if_pos ⟨rfl, hr⟩]
  · rw [hio.nbrs s, nd_modifyNode, if_pos ⟨rfl, by rw [length_modifyNode]; exact hs⟩, hw1]
  · intro j hjr hjs
    rw [hio.nbrs j, nd_modifyNode, if_neg (fun hc => hjs hc.1.symm), nd_modifyNode,
      if_neg (fun hc => hjr hc.1.symm)]

/-- Mutual-membership invariant of the neighbor relation. -/
def NbrSym (w : World) : Prop :=
  ∀ i j, i < w.nodes.length → j < w.nodes.length →
    (j ∈ (nd w i).neighbors ↔ i ∈ (nd w j).neighbors)

/-- No node is its own neighbor. -/
def NbrIrefl (w : World) : Prop := ∀ i, i ∉ (nd w i).neighbors

/-- Every DIS in some inbox names a live sender other than the holder. -/
def DisOk (w : World) : Prop :=
  ∀ i x, Msg.dis x ∈ (nd w i).inbox → x < w.nodes.length ∧ ¬ x = i

/-- The combined neighbor invariant carried through the run. -/
def NbrInv (w : World) : Prop := NbrSym w ∧ NbrIrefl w ∧ DisOk w

theorem nbrInv_mono {w w' : World}
    (hn : ∀ j, (nd w' j).neighbors = (nd w j).neighbors)
    (hlen : w'.nodes.length = w.nodes.length)
    (hdis : DisLe w w') (h : NbrInv w) : NbrInv w' := by
  obtain ⟨hsym, hirr, hok⟩ := h
  refine ⟨?_, ?_, ?_⟩
  · intro i j hi hj
    rw [hn i, hn j]
    exact hsym i j (by rw [← hlen]; exact hi) (by rw [← hlen]; exact hj)
  · intro i
    rw [hn i]
    exact hirr i
  · intro i x hx
    rw [hlen]
    exact hok i x (hdis i x hx)

theorem nbrInv_receive_dis (w : World) (r s : Nat)
    (hr : r < w.nodes.length) (hs : s < w.nodes.length) (hsr : ¬ s = r)
    (h : NbrInv w) : NbrInv (receive_dis w r s) := by
  obtain ⟨hsym, hirr, hok⟩ := h
  by_cases hcond : s ∉ (nd w r).neighbors
      ∧ distSq (nd w r).position (nd w s).position ≤ w.rangeSq
  · have hrev : r ∉ (nd w s).neighbors := by
      intro hmem
      exact hcond.1 ((hsym s r hs hr).mp hmem)
    obtain ⟨e1, e2, e3⟩ := receive_dis_nbrs w r s hr hs hsr hcond hrev
    have hlen := (nbrsOnly_receive_dis w r s).len
    refine ⟨?_, ?_, ?_⟩
    · intro a b ha hb
      rw [hlen] at ha hb
      by_cases har : a = r
      · subst har
        by_cases hbs : b = s
        · subst hbs
          rw [e1, e2]
          simp
        · by_cases hba : b = a
          · subst hba
            exact Iff.rfl
          · rw [e1, e3 b hba hbs, List.mem_append, List.mem_singleton]
            constructor
            · intro hx
              rcases hx with hx | hx
              · exact (hsym a b ha hb).mp hx
              · exact absurd hx hbs
            · intro hx
              exact Or.inl ((hsym a b ha hb).mpr hx)
      · by_cases has : a = s
        · subst has
          by_cases hbr : b = r
          · subst hbr
            rw [e1, e2]
            simp
          · by_cases hba : b = a
            · subst hba
              exact Iff.rfl
            · rw [e2, e3 b hbr hba, List.mem_append, List.mem_singleton]
              constructor
              · intro hx
                rcases hx with hx | hx
                · exact (hsym a b ha hb).mp hx
                · exact absurd hx hbr
              · intro hx
                exact Or.inl ((hsym a b ha hb).mpr hx)
        · by_cases hbr : b = r
          · subst hbr
            rw [e3 a har has, e1, List.mem_append, List.mem_singleton]
            constructor
            · intro hx
              exact Or.inl ((hsym a b ha hb).mp hx)
            · intro hx
              rcases hx with hx | hx
              · exact (hsym a b ha hb).mpr hx
              · exact absurd hx has
          · by_cases hbs : b = s
            · subst hbs
              rw [e3 a har has, e2, List.mem_append, List.mem_singleton]
              constructor
              · intro hx
                exact Or.inl ((hsym a b ha hb).mp hx)
              · intro hx
                rcases hx with hx | hx
                · exact (hsym a b ha hb).mpr hx
                · exact absurd hx har
            · rw [e3 a har has, e3 b hbr hbs]
              exact hsym a b ha hb
    · intro a
      by_cases har : a = r
      · subst har
        rw [e1, List.mem_append, List.mem_singleton]
        intro hx
        rcases hx with hx | hx
        · exact hirr a hx
        · exact hsr hx.symm
      · by_cases has : a = s
        · subst has
          rw [e2, List.mem_append, List.mem_singleton]
          intro hx
          rcases hx with hx | hx
          · exact hirr a hx
          · exact hsr hx
        · rw [e3 a har has]
          exact hirr a
    · intro i x hx
      rw [(nbrsOnly_receive_dis w r s).len]
      exact hok i x (disLe_receive_dis w r s i x hx)
  · rw [receive_dis_noop w r s hcond]
    exact ⟨hsym, hirr, hok⟩

theorem nbrInv_of_parts {w w' : World}
    (hn : ∀ j, (nd w' j).neighbors = (nd w j).neighbors)
    (hlen : w'.nodes.length = w.nodes.length)
    (hdis : DisOk w') (h : NbrInv w) : NbrInv w' := by
  obtain ⟨hsym, hirr, _⟩ := h
  refine ⟨?_, ?_, hdis⟩
  · intro i j hi hj
    rw [hn i, hn j]
    exact hsym i j (by rw [← hlen]; exact hi) (by rw [← hlen]; exact hj)
  · intro i
    rw [hn i]
    exact hirr i

theorem nbrInv_discover (w : World) (i : Nat) (hi : i < w.nodes.length)
    (h : NbrInv w) : NbrInv (discover_neighbors w i) := by
  refine nbrInv_of_parts (inboxOnly_discover w i).nbrs (inboxOnly_discover w i).len ?_ h
  intro j x hx
  rw [(inboxOnly_discover w i).len]
  rcases discoverLoop_dis i _ (onCtrlTx w) j x hx with hold | ⟨hxi, hji⟩
  · exact h.2.2 j x hold
  · subst hxi
    exact ⟨hi, fun hxj => hji hxj.symm⟩

theorem nbrInv_trickle (w : World) (i : Nat) (tNew : Rat) (hi : i < w.nodes.length)
    (h : NbrInv w) : NbrInv (trickle_fire w i tNew) := by
  refine nbrInv_of_parts (timerOnly_trickle w i tNew).nbrs (timerOnly_trickle w i tNew).len
    ?_ h
  intro j x hx
  rw [(timerOnly_trickle w i tNew).len]
  rw [trickle_fire, inbox_modify_trickle] at hx
  revert hx
  split
  · intro hx
    rcases sendDisLoop_dis i _ w j x hx with hold | ⟨hxi, hji⟩
    · exact h.2.2 j x hold
    · subst hxi
      exact ⟨hi, fun hxj => hji hxj.symm⟩
  · intro hx
    exact h.2.2 j x hx

theorem nbrInv_applyEv (w : World) (e : Ev) (he : evOk w e = true) (h : NbrInv w) :
    NbrInv (applyEv w e) := by
  cases e with
  | inbox i =>
      have hi : i < w.nodes.length := by
        rw [evOk, Bool.and_eq_true, decide_eq_true_eq] at he
        exact he.1
      simp only [applyEv, stepInbox]
      cases hib : (nd w i).inbox with
      | nil => exact h
      | cons m rest =>
          have h1 : NbrInv (modifyNode w i (fun n => { n with inbox := n.inbox.drop 1 })) :=
            nbrInv_mono (inboxOnly_modify_inbox w i _).nbrs
              (inboxOnly_modify_inbox w i _).len (disLe_pop w i) h
          cases m with
          | daoAck f cp st => exact h1
          | dis s =>
              have hmem : Msg.dis s ∈ (nd w i).inbox := by
                rw [hib]
                exact List.mem_cons_self _ _
              obtain ⟨hs, hsi⟩ := h.2.2 i s hmem
              exact nbrInv_receive_dis _ i s
                (by rw [length_modifyNode]; exact hi)
                (by rw [length_modifyNode]; exact hs) hsi h1
          | dio s =>
              exact nbrInv_mono (parentOnly_receive_dio _ i s).nbrs
                (parentOnly_receive_dio _ i s).len (disLe_receive_dio _ i s) h1
          | dao cn cp =>
              exact nbrInv_mono (routesOnly_receive_dao _ i cp cn).nbrs
                (routesOnly_receive_dao _ i cp cn).len (disLe_receive_dao _ i cp cn) h1
          | data src dst =>
              have hio : InboxOnly
                  (modifyNode w i (fun n => { n with inbox := List.drop 1 n.inbox }))
                  (handle_packet
                    (onRx (modifyNode w i (fun n => { n with inbox := List.drop 1 n.inbox })))
                    i src dst) :=
                inboxOnly_trans (inboxOnly_withMon _ _) (inboxOnly_handle_packet _ i src dst)
              exact nbrInv_mono hio.nbrs hio.len
                (disLe_trans (disLe_withMon _ _) (disLe_handle_packet _ i src dst)) h1
  | discover i =>
      have hi : i < w.nodes.length := by
        rw [evOk, decide_eq_true_eq] at he
        exact he
      exact nbrInv_discover w i hi h
  | advertise i =>
      exact nbrInv_mono (inboxOnly_send_dio w i).nbrs (inboxOnly_send_dio w i).len
        (disLe_sendDioLoop i _ w) h
  | trickle i t =>
      have hi : i < w.nodes.length := by
        rw [evOk, Bool.and_eq_true, Bool.and_eq_true, decide_eq_true_eq] at he
        exact he.1.1
      exact nbrInv_trickle w i t hi h
  | attack a pick fakeNum =>
      simp only [applyEv, attack_cycle]
      split
      · exact h
      · exact nbrInv_mono (routesOnly_receive_dao _ _ _ _).nbrs
          (routesOnly_receive_dao _ _ _ _).len (disLe_receive_dao _ _ _ _) h
  | traffic src dst =>
      exact nbrInv_mono (inboxOnly_gen_traffic w src dst).nbrs
        (inboxOnly_gen_traffic w src dst).len (disLe_gen_traffic w src dst) h

theorem mkWorld_nbrs (ps : List (Int × Int)) (rSq : Int) (i : Nat) :
    (nd (mkWorld ps rSq) i).neighbors = [] := by
  by_cases h : i < ps.length
  · rw [nd_mkWorld ps rSq i h]
    rfl
  · rw [nd_of_ge _ _ (by rw [length_mkWorld]; exact le_of_not_lt h)]
    rfl

theorem mkWorld_inbox (ps : List (Int × Int)) (rSq : Int) (i : Nat) :
    (nd (mkWorld ps rSq) i).inbox = [] := by
  by_cases h : i < ps.length
  · rw [nd_mkWorld ps rSq i h]
    rfl
  · rw [nd_of_ge _ _ (by rw [length_mkWorld]; exact le_of_not_lt h)]
    rfl

theorem nbrInv_mkWorld (ps : List (Int × Int)) (rSq : Int) : NbrInv (mkWorld ps rSq) := by
  refine ⟨?_, ?_, ?_⟩
  · intro i j _ _
    rw [mkWorld_nbrs, mkWorld_nbrs]
    simp
  · intro i
    rw [mkWorld_nbrs]
    exact List.not_mem_nil i
  · intro i x hx
    rw [mkWorld_inbox] at hx
    exact absurd hx (List.not_mem_nil _)

/-- C6: in every reachable state the neighbor relation is symmetric over live
nodes and irreflexive, and when the DIS handshake fires on a pair of live
nodes lacking the edge, both directions of the relation are installed in that
one handling step. -/
theorem C6_neighbor_symmetry :
    (∀ ps rSq w, Reachable (mkWorld ps rSq) w →
       (∀ i j, i < w.nodes.length → j < w.nodes.length →
          (j ∈ (nd w i).neighbors ↔ i ∈ (nd w j).neighbors))
       ∧ ∀ i, i ∉ (nd w i).neighbors)
  ∧ (∀ w r s, r < w.nodes.length → s < w.nodes.length → ¬ s = r →
       s ∉ (nd w r).neighbors →
       distSq (nd w r).position (nd w s).position ≤ w.rangeSq →
       r ∉ (nd w s).neighbors →
       s ∈ (nd (receive_dis w r s) r).neighbors
       ∧ r ∈ (nd (receive_dis w r s) s).neighbors) := by
  constructor
  · intro ps rSq w hreach
    have hinv : NbrInv w :=
      invariant_reachable nbrInv_applyEv (nbrInv_mkWorld ps rSq) hreach
    exact ⟨hinv.1, hinv.2.1⟩
  · intro w r s hr hs hsr hmem hrange hrev
    obtain ⟨e1, e2, -⟩ := receive_dis_nbrs w r s hr hs hsr ⟨hmem, hrange⟩ hrev
    rw [e1, e2]
    constructor
    · exact List.mem_append.mpr (Or.inr (List.mem_singleton.mpr rfl))
    · exact List.mem_append.mpr (Or.inr (List.mem_singleton.mpr rfl))

/-- Concrete world for the C6 witness: two in-range nodes before discovery. -/
def wC6 : World := mkWorld [(0, 0), (1, 0)] 100

theorem C6_witness :
    (0 : Nat) ∉ (nd (mkWorld [(0, 0)] 0) 0).neighbors
  ∧ (1 : Nat) ∈ (nd (receive_dis wC6 0 1) 0).neighbors
  ∧ (0 : Nat) ∈ (nd (receive_dis wC6 0 1) 1).neighbors := by
  have h1 := (C6_neighbor_symmetry.1 [(0, 0)] 0 _ Relation.ReflTransGen.refl).2 0
  have h2 := C6_neighbor_symmetry.2 wC6 0 1 (by decide) (by decide) (by decide)
    (by decide) (by decide) (by decide)
  exact ⟨h1, h2.1, h2.2⟩

end RTOA
